import Mathlib

/-!
Verification development for the Catmull-Clark subdivision core
(`src/catmull_clark.cpp` together with the mesh types of
`include/catmull_clark/common.h`).

The C++ code is shallowly embedded: 3D float vectors become triples of
rationals, the two `std::unordered_map`s become association lists operated
on only through keyed lookup / erase / insert, exceptions become `Except`,
and the in-place mutation of the adjacency model becomes explicit state
passing.  Every definition below mirrors one function or loop of the
source file; spec-side definitions (whose names start with `spec` or
`claim`) instead follow the wording of the specification and are compared
against the code-side definitions in the theorems.
-/

/-- Embedding of `Vec3` (`agz::math::vec3f`): a 3D vector, with exact
rational components standing for the float components. -/
structure Vec3 where
  x : ℚ
  y : ℚ
  z : ℚ
deriving DecidableEq, Repr

instance : Add Vec3 := ⟨fun a b => ⟨a.x + b.x, a.y + b.y, a.z + b.z⟩⟩

instance : Zero Vec3 := ⟨⟨0, 0, 0⟩⟩

@[simp] theorem Vec3.add_x (a b : Vec3) : (a + b).x = a.x + b.x := rfl
@[simp] theorem Vec3.add_y (a b : Vec3) : (a + b).y = a.y + b.y := rfl
@[simp] theorem Vec3.add_z (a b : Vec3) : (a + b).z = a.z + b.z := rfl
@[simp] theorem Vec3.zero_x : (0 : Vec3).x = 0 := rfl
@[simp] theorem Vec3.zero_y : (0 : Vec3).y = 0 := rfl
@[simp] theorem Vec3.zero_z : (0 : Vec3).z = 0 := rfl

theorem Vec3.ext' {a b : Vec3} (hx : a.x = b.x) (hy : a.y = b.y) (hz : a.z = b.z) :
    a = b := by
  cases a; cases b; simp_all

instance : AddCommMonoid Vec3 where
  add := (· + ·)
  zero := 0
  add_assoc := by intro a b c; apply Vec3.ext' <;> simp <;> ring
  zero_add := by intro a; apply Vec3.ext' <;> simp
  add_zero := by intro a; apply Vec3.ext' <;> simp
  add_comm := by intro a b; apply Vec3.ext' <;> simp <;> ring
  nsmul := nsmulRec
  nsmul_zero := fun _ => rfl
  nsmul_succ := fun _ _ => rfl

instance : Inhabited Vec3 := ⟨0⟩

/-- Scalar multiplication `c * v` on vectors (float scalar times `Vec3`). -/
instance : SMul ℚ Vec3 := ⟨fun c v => ⟨c * v.x, c * v.y, c * v.z⟩⟩

/-- Componentwise division by an integer count, as in `vertexSum / count`. -/
def Vec3.divNat (v : Vec3) (n : Nat) : Vec3 := ⟨v.x / n, v.y / n, v.z / n⟩

@[simp] theorem Vec3.smul_x (c : ℚ) (v : Vec3) : (c • v).x = c * v.x := rfl
@[simp] theorem Vec3.smul_y (c : ℚ) (v : Vec3) : (c • v).y = c * v.y := rfl
@[simp] theorem Vec3.smul_z (c : ℚ) (v : Vec3) : (c • v).z = c * v.z := rfl

/-- Embedding of `struct Vertex` of `common.h`: a vertex of the flat mesh,
holding only a position. -/
structure Vertex where
  position : Vec3
deriving DecidableEq, Repr

instance : Inhabited Vertex := ⟨⟨0⟩⟩

/-- Embedding of `struct Face` of `common.h`: a quad/triangle flag plus four
vertex indices (`indices[4]`; slot 3 is unused for triangles). -/
structure Face where
  isQuad : Bool
  i0 : Nat
  i1 : Nat
  i2 : Nat
  i3 : Nat
deriving DecidableEq, Repr

instance : Inhabited Face := ⟨⟨false, 0, 0, 0, 0⟩⟩

/-- Number of corners the code reads from a face: `isQuad ? 4 : 3`. -/
def Face.cornerCount (f : Face) : Nat := if f.isQuad then 4 else 3

/-- `f.indices[i]` of the C++ `Face`. -/
def Face.idx (f : Face) (i : Nat) : Nat :=
  match i with
  | 0 => f.i0
  | 1 => f.i1
  | 2 => f.i2
  | _ => f.i3

/-- Embedding of `struct Mesh` of `common.h`. -/
structure Mesh where
  vertices : List Vertex
  faces : List Face
deriving DecidableEq, Repr

instance : Inhabited Mesh := ⟨⟨[], []⟩⟩

/-- Embedding of `VertexRecord` of `catmull_clark.cpp`. -/
structure VertexRecord where
  position : Vec3
  edges : List Nat
  faces : List Nat
deriving DecidableEq, Repr

instance : Inhabited VertexRecord := ⟨⟨0, [], []⟩⟩

/-- Embedding of `EdgeRecord` of `catmull_clark.cpp`; `face0`/`face1` are the
two slots of the C++ `faces[2]` array, initialized to `-1`. -/
structure EdgeRecord where
  low_vertex : Int
  high_vertex : Int
  face_count : Nat
  face0 : Int
  face1 : Int
deriving DecidableEq, Repr

instance : Inhabited EdgeRecord := ⟨⟨-1, -1, 0, -1, -1⟩⟩

/-- Embedding of `FaceRecord` of `catmull_clark.cpp`: `v0..v3` are the
`vertices[4]` array and `e0..e3` the `edges[4]` array, initialized to `-1`. -/
structure FaceRecord where
  isQuad : Bool
  v0 : Int
  v1 : Int
  v2 : Int
  v3 : Int
  e0 : Int
  e1 : Int
  e2 : Int
  e3 : Int
deriving DecidableEq, Repr

instance : Inhabited FaceRecord := ⟨⟨false, -1, -1, -1, -1, -1, -1, -1, -1⟩⟩

/-- `f.vertices[j]` of the C++ `FaceRecord`. -/
def FaceRecord.vtx (f : FaceRecord) (j : Nat) : Int :=
  match j with
  | 0 => f.v0
  | 1 => f.v1
  | 2 => f.v2
  | _ => f.v3

/-- `f.edges[j]` of the C++ `FaceRecord`. -/
def FaceRecord.edg (f : FaceRecord) (j : Nat) : Int :=
  match j with
  | 0 => f.e0
  | 1 => f.e1
  | 2 => f.e2
  | _ => f.e3

/-- Corner count of a face record: `isQuad ? 4 : 3`. -/
def FaceRecord.cornerCount (f : FaceRecord) : Nat := if f.isQuad then 4 else 3

/-- Keyed lookup in an association list; models `unordered_map::find`. -/
def lookupKey {α β : Type} [DecidableEq α] : List (α × β) → α → Option β
  | [], _ => none
  | (a, b) :: t, k => if a = k then some b else lookupKey t k

/-- Keyed removal of the (unique) entry for a key; models
`unordered_map::erase(key)`. -/
def eraseKey {α β : Type} [DecidableEq α] : List (α × β) → α → List (α × β)
  | [], _ => []
  | (a, b) :: t, k => if a = k then t else (a, b) :: eraseKey t k

/-- In-place update of one element of a vector, as in `l[i] = f(l[i])`. -/
def listModify {α : Type} : List α → Nat → (α → α) → List α
  | [], _, _ => []
  | a :: t, 0, f => f a :: t
  | a :: t, n + 1, f => a :: listModify t n f

/-- `vertexPair.x < vertexPair.y ? vertexPair : vertexPair.yx()`. -/
def sortPair (p : Int × Int) : Int × Int := if p.1 < p.2 then p else (p.2, p.1)

/-- Embedding of `struct Model` of `catmull_clark.cpp`: the adjacency model
with its two hash maps (as association lists). -/
structure Model where
  vertices : List VertexRecord
  edges : List EdgeRecord
  faces : List FaceRecord
  positionToVertex : List (Vec3 × Nat)
  vertexPairToEdge : List ((Int × Int) × Nat)
deriving DecidableEq, Repr

instance : Inhabited Model := ⟨⟨[], [], [], [], []⟩⟩

def emptyModel : Model := ⟨[], [], [], [], []⟩

/-- Current position of vertex `i` of a model. -/
def Model.posOf (m : Model) (i : Nat) : Vec3 := (m.vertices.getD i default).position

/-- The exception message of `Model::moveVertex`. -/
def collisionErrorMessage : String :=
  "topology error in moving vertex: same position for different vertices"

/-- Embedding of `Model::moveVertex`: erase the old position key, throw if the
new position is already mapped, otherwise re-key the map and store the new
position. -/
def Model.moveVertex (m : Model) (vertexIndex : Nat) (newPosition : Vec3) :
    Except String Model :=
  let oldPosition := (m.vertices.getD vertexIndex default).position
  let mapAfterErase := eraseKey m.positionToVertex oldPosition
  if (lookupKey mapAfterErase newPosition).isSome then
    .error collisionErrorMessage
  else
    .ok { m with
          positionToVertex := (newPosition, vertexIndex) :: mapAfterErase,
          vertices :=
            listModify m.vertices vertexIndex (fun v => { v with position := newPosition }) }

/-- Embedding of `Model::getVertexIndex`: look the position up, inserting a
fresh vertex record when absent. -/
def Model.getVertexIndex (m : Model) (position : Vec3) : Nat × Model :=
  match lookupKey m.positionToVertex position with
  | some i => (i, m)
  | none =>
    let ret := m.vertices.length
    (ret, { m with
            vertices := m.vertices ++ [⟨position, [], []⟩],
            positionToVertex := (position, ret) :: m.positionToVertex })

/-- Embedding of `Model::getEdgeIndex`: sort the vertex pair, look it up,
inserting a fresh edge record when absent. -/
def Model.getEdgeIndex (m : Model) (vertexPair : Int × Int) : Nat × Model :=
  let sp := sortPair vertexPair
  match lookupKey m.vertexPairToEdge sp with
  | some i => (i, m)
  | none =>
    let ret := m.edges.length
    (ret, { m with
            edges := m.edges ++ [⟨sp.1, sp.2, 0, -1, -1⟩],
            vertexPairToEdge := (sp, ret) :: m.vertexPairToEdge })

/-- `model.vertices[startVertex].edges.push_back(edgeIndex)`. -/
def pushVertEdge (m : Model) (vi ei : Nat) : Model :=
  { m with vertices :=
      listModify m.vertices vi (fun v => { v with edges := v.edges ++ [ei] }) }

/-- `vertexRecord.faces.push_back(faceIndex)`. -/
def pushVertFace (m : Model) (vi fi : Nat) : Model :=
  { m with vertices :=
      listModify m.vertices vi (fun v => { v with faces := v.faces ++ [fi] }) }

/-- The saturating face insertion of `meshToModel`:
`if(face_count >= 2) continue; faces[face_count++] = faceIndex;`. -/
def EdgeRecord.addFaceIdx (e : EdgeRecord) (fi : Nat) : EdgeRecord :=
  if 2 ≤ e.face_count then e
  else if e.face_count = 0 then { e with face0 := Int.ofNat fi, face_count := 1 }
  else { e with face1 := Int.ofNat fi, face_count := e.face_count + 1 }

def edgeAddFace (m : Model) (ei fi : Nat) : Model :=
  { m with edges := listModify m.edges ei (fun e => e.addFaceIdx fi) }

/-- The first loop of `meshToModel`'s face processing: resolve each corner
position to a vertex index. -/
def resolveVerts (m : Model) : List Vec3 → List Nat × Model
  | [] => ([], m)
  | p :: rest =>
    let r := m.getVertexIndex p
    let r2 := resolveVerts r.2 rest
    (r.1 :: r2.1, r2.2)

/-- The second loop of `meshToModel`'s face processing: resolve each
consecutive corner pair to an edge index and record the edge into both
endpoint vertices' incident-edge lists. -/
def resolveEdges (m : Model) : List (Nat × Nat) → List Nat × Model
  | [] => ([], m)
  | (s, e) :: rest =>
    let r := m.getEdgeIndex ((s : Int), (e : Int))
    let m2 := pushVertEdge (pushVertEdge r.2 s r.1) e r.1
    let r2 := resolveEdges m2 rest
    (r.1 :: r2.1, r2.2)

/-- The `FaceRecord` built for one face: the first `count` slots of the C++
`vertices[4]` / `edges[4]` arrays are written, the rest keep `-1`. -/
def intAt (l : List Nat) (j : Nat) : Int := (l.map Int.ofNat).getD j (-1)

def FaceRecord.build (q : Bool) (vis eis : List Nat) : FaceRecord :=
  ⟨q, intAt vis 0, intAt vis 1, intAt vis 2, intAt vis 3,
      intAt eis 0, intAt eis 1, intAt eis 2, intAt eis 3⟩

/-- Processing of one input face inside `meshToModel`: resolve corners to
vertices, sides to edges, append the face record, and record the face index
into every touched vertex and (saturating at 2) every touched edge. -/
def addFaceCore (m : Model) (q : Bool) (ps : List Vec3) : Model :=
  let count := if q then 4 else 3
  let rv := resolveVerts m ps
  let vis := rv.1
  let sides := (List.range count).map
    (fun i => (vis.getD i 0, vis.getD ((i + 1) % count) 0))
  let re := resolveEdges rv.2 sides
  let eis := re.1
  let m2 := re.2
  let fi := m2.faces.length
  let m3 := { m2 with faces := m2.faces ++ [FaceRecord.build q vis eis] }
  let m4 := vis.foldl (fun mm vi => pushVertFace mm vi fi) m3
  eis.foldl (fun mm ei => edgeAddFace mm ei fi) m4

/-- The corner positions a face makes `meshToModel` read:
`mesh.vertices[f.indices[i]].position` for `i < vertexCount`. -/
def cornerPositionsOf (mesh : Mesh) (f : Face) : List Vec3 :=
  (List.range f.cornerCount).map
    (fun i => (mesh.vertices.getD (f.idx i) default).position)

/-- Embedding of `meshToModel`. -/
def meshToModel (mesh : Mesh) : Model :=
  mesh.faces.foldl
    (fun m f => addFaceCore m f.isQuad (cornerPositionsOf mesh f)) emptyModel

/-- Face points: for every face the arithmetic mean of its corner
positions (the first loop of `applyCatmullClarkSubdivisionOnce`). -/
def facePoints (m : Model) : List Vec3 :=
  m.faces.map (fun f =>
    let vertexCount := f.cornerCount
    let vertexSum := (List.range vertexCount).foldl
      (fun acc j => acc + m.posOf (f.vtx j).toNat) 0
    vertexSum.divNat vertexCount)

/-- Edge points: midpoint unless the edge has exactly two incident faces, in
which case the quarter-weighted blend with the two face points (the second
loop of `applyCatmullClarkSubdivisionOnce`). -/
def edgePoints (m : Model) (fps : List Vec3) : List Vec3 :=
  m.edges.map (fun e =>
    if e.face_count ≠ 2 then
      ((1 : ℚ)/2) • (m.posOf e.low_vertex.toNat + m.posOf e.high_vertex.toNat)
    else
      ((1 : ℚ)/4) • (m.posOf e.low_vertex.toNat + m.posOf e.high_vertex.toNat +
        fps.getD e.face0.toNat 0 + fps.getD e.face1.toNat 0))

/-- The new position computed for vertex `i` inside the repositioning loop of
`applyCatmullClarkSubdivisionOnce`, reading positions from the `oldPositions`
snapshot. -/
def newVertexPosition (m : Model) (fps oldPos : List Vec3) (i : Nat) : Vec3 :=
  let v := m.vertices.getD i default
  let n := v.faces.length
  let w1 : ℚ := ((n : ℚ) - 3) / (n : ℚ)
  let w2 : ℚ := 1 / (n : ℚ)
  let w3 : ℚ := 2 / (n : ℚ)
  let avgFacePosition :=
    (v.faces.foldl (fun acc fj => acc + fps.getD fj 0) 0).divNat n
  let avgEdgeMid :=
    (v.edges.foldl (fun acc ei =>
      let e := m.edges.getD ei default
      acc + ((1 : ℚ)/2) •
        (oldPos.getD e.low_vertex.toNat 0 + oldPos.getD e.high_vertex.toNat 0)) 0).divNat
      v.edges.length
  w1 • oldPos.getD i 0 + w2 • avgFacePosition + w3 • avgEdgeMid

/-- The vertex-repositioning loop, moving each vertex in index order. -/
def repositionGo (fps oldPos : List Vec3) (m : Model) : List Nat → Except String Model
  | [] => .ok m
  | i :: rest =>
    match m.moveVertex i (newVertexPosition m fps oldPos i) with
    | .error s => .error s
    | .ok m2 => repositionGo fps oldPos m2 rest

def repositionAll (m : Model) (fps oldPos : List Vec3) : Except String Model :=
  repositionGo fps oldPos m (List.range m.vertices.length)

/-- One step of the re-tessellation loop of
`applyCatmullClarkSubdivisionOnce`: emit the sub-quads of face `fi`,
appending the face's new vertices and quads to the output mesh. -/
def buildStep (fps eps : List Vec3) (st : Model × Mesh) (fi : Nat) : Model × Mesh :=
  let m := st.1
  let mesh := st.2
  let f := m.faces.getD fi default
  if f.isQuad then
    let va := m.posOf f.v0.toNat
    let vb := m.posOf f.v1.toNat
    let vc := m.posOf f.v2.toNat
    let vd := m.posOf f.v3.toNat
    let r0 := m.getEdgeIndex (f.v0, f.v1)
    let eab := eps.getD r0.1 0
    let r1 := r0.2.getEdgeIndex (f.v1, f.v2)
    let ebc := eps.getD r1.1 0
    let r2 := r1.2.getEdgeIndex (f.v2, f.v3)
    let ecd := eps.getD r2.1 0
    let r3 := r2.2.getEdgeIndex (f.v3, f.v0)
    let eda := eps.getD r3.1 0
    let fabcd := fps.getD fi 0
    let aIndex := mesh.vertices.length
    let bIndex := aIndex + 1
    let cIndex := aIndex + 2
    let dIndex := aIndex + 3
    let eabIndex := aIndex + 4
    let ebcIndex := aIndex + 5
    let ecdIndex := aIndex + 6
    let edaIndex := aIndex + 7
    let fabcdIndex := aIndex + 8
    (r3.2,
     { vertices := mesh.vertices ++
         [⟨va⟩, ⟨vb⟩, ⟨vc⟩, ⟨vd⟩, ⟨eab⟩, ⟨ebc⟩, ⟨ecd⟩, ⟨eda⟩, ⟨fabcd⟩],
       faces := mesh.faces ++
         [⟨true, edaIndex, aIndex, eabIndex, fabcdIndex⟩,
          ⟨true, eabIndex, bIndex, ebcIndex, fabcdIndex⟩,
          ⟨true, ebcIndex, cIndex, ecdIndex, fabcdIndex⟩,
          ⟨true, ecdIndex, dIndex, edaIndex, fabcdIndex⟩] })
  else
    let va := m.posOf f.v0.toNat
    let vb := m.posOf f.v1.toNat
    let vc := m.posOf f.v2.toNat
    let r0 := m.getEdgeIndex (f.v0, f.v1)
    let eab := eps.getD r0.1 0
    let r1 := r0.2.getEdgeIndex (f.v1, f.v2)
    let ebc := eps.getD r1.1 0
    let r2 := r1.2.getEdgeIndex (f.v2, f.v0)
    let eca := eps.getD r2.1 0
    let fabc := fps.getD fi 0
    let aIndex := mesh.vertices.length
    let bIndex := aIndex + 1
    let cIndex := aIndex + 2
    let eabIndex := aIndex + 3
    let ebcIndex := aIndex + 4
    let ecaIndex := aIndex + 5
    let fabcIndex := aIndex + 6
    (r2.2,
     { vertices := mesh.vertices ++
         [⟨va⟩, ⟨vb⟩, ⟨vc⟩, ⟨eab⟩, ⟨ebc⟩, ⟨eca⟩, ⟨fabc⟩],
       faces := mesh.faces ++
         [⟨true, ecaIndex, aIndex, eabIndex, fabcIndex⟩,
          ⟨true, eabIndex, bIndex, ebcIndex, fabcIndex⟩,
          ⟨true, ebcIndex, cIndex, ecaIndex, fabcIndex⟩] })

/-- The re-tessellation loop: build the output mesh face by face. -/
def buildNewMesh (m : Model) (fps eps : List Vec3) : Mesh :=
  ((List.range m.faces.length).foldl (buildStep fps eps) (m, ⟨[], []⟩)).2

/-- Embedding of `applyCatmullClarkSubdivisionOnce`. -/
def applyCatmullClarkSubdivisionOnce (oldModel : Model) : Except String Mesh :=
  let fps := facePoints oldModel
  let eps := edgePoints oldModel fps
  let oldPositions := oldModel.vertices.map (·.position)
  match repositionAll oldModel fps oldPositions with
  | .error s => .error s
  | .ok m => .ok (buildNewMesh m fps eps)

/-- The iteration loop of `applyCatmullClarkSubdivision`. -/
def applyCatmullClarkIterate : Nat → Mesh → Except String Mesh
  | 0, mesh => .ok mesh
  | k + 1, mesh =>
    match applyCatmullClarkSubdivisionOnce (meshToModel mesh) with
    | .error s => .error s
    | .ok next => applyCatmullClarkIterate k next

/-- The message of the embedded `assert(iterationCount >= 0)`. -/
def assertionErrorMessage : String := "assertion failed: iterationCount >= 0"

/-- Embedding of `applyCatmullClarkSubdivision`; the entry assertion is
modeled as a distinct error. -/
def applyCatmullClarkSubdivision (originalMesh : Mesh) (iterationCount : Int) :
    Except String Mesh :=
  if iterationCount < 0 then .error assertionErrorMessage
  else applyCatmullClarkIterate iterationCount.toNat originalMesh

/-! ### List and association-list lemmas -/

theorem getD_map_lt {α β : Type} (f : α → β) :
    ∀ (l : List α) (i : Nat) (d : β) (d' : α), i < l.length →
      (l.map f).getD i d = f (l.getD i d')
  | a :: t, 0, _, _, _ => rfl
  | a :: t, i + 1, d, d', h =>
    getD_map_lt f t i d d' (Nat.lt_of_succ_lt_succ (by simpa using h))

theorem listModify_length {α : Type} :
    ∀ (l : List α) (i : Nat) (f : α → α), (listModify l i f).length = l.length
  | [], _, _ => rfl
  | _ :: _, 0, _ => rfl
  | a :: t, i + 1, f => by simp [listModify, listModify_length t i f]

theorem getD_listModify_ne {α : Type} (f : α → α) :
    ∀ (l : List α) (i j : Nat) (d : α), j ≠ i →
      (listModify l i f).getD j d = l.getD j d
  | [], _, _, _, _ => by simp [listModify]
  | a :: t, 0, 0, d, h => absurd rfl h
  | a :: t, 0, j + 1, d, _ => rfl
  | a :: t, i + 1, 0, d, _ => rfl
  | a :: t, i + 1, j + 1, d, h =>
    getD_listModify_ne f t i j d (fun hji => h (by omega))

theorem getD_listModify_self {α : Type} (f : α → α) :
    ∀ (l : List α) (i : Nat) (d : α), i < l.length →
      (listModify l i f).getD i d = f (l.getD i d)
  | a :: t, 0, d, _ => rfl
  | a :: t, i + 1, d, h =>
    getD_listModify_self f t i d (Nat.lt_of_succ_lt_succ (by simpa using h))

theorem getD_append_left {α : Type} :
    ∀ (l1 l2 : List α) (j : Nat) (d : α), j < l1.length →
      (l1 ++ l2).getD j d = l1.getD j d
  | a :: t, l2, 0, d, _ => rfl
  | a :: t, l2, j + 1, d, h =>
    getD_append_left t l2 j d (Nat.lt_of_succ_lt_succ (by simpa using h))

theorem getD_append_right {α : Type} :
    ∀ (l1 l2 : List α) (j : Nat) (d : α), l1.length ≤ j →
      (l1 ++ l2).getD j d = l2.getD (j - l1.length) d
  | [], l2, j, d, _ => by simp
  | a :: t, l2, j + 1, d, h => by
    simpa using getD_append_right t l2 j d (Nat.le_of_succ_le_succ h)

theorem lookupKey_some_mem {α β : Type} [DecidableEq α] :
    ∀ {l : List (α × β)} {k : α} {v : β}, lookupKey l k = some v → (k, v) ∈ l := by
  intro l
  induction l with
  | nil => intro k v h; simp [lookupKey] at h
  | cons a t ih =>
    intro k v h
    rcases a with ⟨a1, a2⟩
    by_cases hk : a1 = k
    · rw [lookupKey, if_pos hk] at h
      subst hk
      cases h
      exact List.mem_cons_self _ _
    · rw [lookupKey, if_neg hk] at h
      exact List.mem_cons_of_mem _ (ih h)

theorem lookup_eraseKey_ne {α β : Type} [DecidableEq α] (k k' : α) (hne : k' ≠ k) :
    ∀ (l : List (α × β)), lookupKey (eraseKey l k) k' = lookupKey l k'
  | [] => rfl
  | (a, b) :: t => by
    by_cases hk : a = k
    · have hak : ¬ a = k' := fun h => hne (by rw [← h]; exact hk)
      simp [eraseKey, lookupKey, hk, hak, hne.symm]
    · by_cases ha : a = k'
      · simp [eraseKey, lookupKey, hk, ha, hne]
      · simp only [eraseKey, if_neg hk, lookupKey, if_neg ha]
        exact lookup_eraseKey_ne k k' hne t

theorem lookup_none_of_not_key {α β : Type} [DecidableEq α] (k : α) :
    ∀ (l : List (α × β)), k ∉ l.map Prod.fst → lookupKey l k = none
  | [], _ => rfl
  | (a, b) :: t, h => by
    have ha : ¬ a = k := by intro hc; apply h; simp [hc]
    rw [lookupKey, if_neg ha]
    exact lookup_none_of_not_key k t (fun hm => h (by simp at hm ⊢; exact Or.inr hm))

theorem lookup_eraseKey_self {α β : Type} [DecidableEq α] (k : α) :
    ∀ (l : List (α × β)), (l.map Prod.fst).Nodup →
      lookupKey (eraseKey l k) k = none
  | [], _ => rfl
  | (a, b) :: t, h => by
    have hnd : (t.map Prod.fst).Nodup := (List.nodup_cons.mp (by simpa using h)).2
    by_cases hk : a = k
    · rw [eraseKey, if_pos hk]
      have hnot : a ∉ t.map Prod.fst := (List.nodup_cons.mp (by simpa using h)).1
      exact lookup_none_of_not_key k t (hk ▸ hnot)
    · rw [eraseKey, if_neg hk, lookupKey, if_neg hk]
      exact lookup_eraseKey_self k t hnd


theorem foldl_add_eq_sum {M : Type} [AddCommMonoid M] :
    ∀ (l : List M) (a : M), l.foldl (· + ·) a = a + l.sum
  | [], a => by simp
  | h :: t, a => by
    rw [List.foldl_cons, foldl_add_eq_sum t (a + h), List.sum_cons, add_assoc]

/-! ### Concrete meshes used as witnesses and counterexamples -/

/-- Two triangles `(A,B,C)` and `(B,A,D)` sharing the edge `AB`. -/
def mesh2tri : Mesh :=
  ⟨[⟨⟨0, 0, 0⟩⟩, ⟨⟨4, 0, 0⟩⟩, ⟨⟨0, 4, 0⟩⟩, ⟨⟨4, 4, 0⟩⟩],
   [⟨false, 0, 1, 2, 0⟩, ⟨false, 1, 0, 3, 0⟩]⟩

/-- The adjacency model of `mesh2tri`. -/
def cm : Model := meshToModel mesh2tri

/-- A mesh whose single triangle references the out-of-range vertex index 5. -/
def badMesh : Mesh := ⟨[⟨⟨1, 0, 0⟩⟩, ⟨⟨0, 1, 0⟩⟩], [⟨false, 0, 1, 5, 0⟩]⟩

/-- Three triangles sharing the edge between vertices 0 and 1 (a non-manifold
edge with three incident faces). -/
def mesh3fan : Mesh :=
  ⟨[⟨⟨0, 0, 0⟩⟩, ⟨⟨1, 0, 0⟩⟩, ⟨⟨0, 1, 0⟩⟩, ⟨⟨0, 0, 1⟩⟩, ⟨⟨1, 1, 1⟩⟩],
   [⟨false, 0, 1, 2, 0⟩, ⟨false, 0, 1, 3, 0⟩, ⟨false, 0, 1, 4, 0⟩]⟩

/-- Whether a subdivision call succeeded. -/
def isOkE {α : Type} (r : Except String α) : Bool :=
  match r with
  | .ok _ => true
  | .error _ => false

/-! ### C4 -/

/-- C4: `applyCatmullClarkSubdivision(mesh, 0)` returns a mesh whose vertex
positions and face connectivity are identical to the input; in the embedding
(value semantics, mirroring the C++ copy `Mesh mesh = originalMesh`) the
result is exactly the input mesh and the argument is never mutated. -/
theorem c4_zero_iteration_identity (mesh : Mesh) :
    applyCatmullClarkSubdivision mesh 0 = Except.ok mesh := rfl

/-! ### C2 -/

/-- C2: the edge point of an edge with `face_count == 1` is the exact midpoint
of its two endpoint positions, and the edge point of an edge with
`face_count == 2` is the equally weighted mean
`0.25*(P0+P1+F0+F1)` of the two endpoints and the two incident faces' face
points. -/
theorem c2_edge_point_rule (m : Model) (ei : Nat) (h : ei < m.edges.length) :
    ((m.edges.getD ei default).face_count = 1 →
      (edgePoints m (facePoints m)).getD ei 0 =
        ((1 : ℚ)/2) • (m.posOf (m.edges.getD ei default).low_vertex.toNat +
                       m.posOf (m.edges.getD ei default).high_vertex.toNat)) ∧
    ((m.edges.getD ei default).face_count = 2 →
      (edgePoints m (facePoints m)).getD ei 0 =
        ((1 : ℚ)/4) • (m.posOf (m.edges.getD ei default).low_vertex.toNat +
                       m.posOf (m.edges.getD ei default).high_vertex.toNat +
                       (facePoints m).getD (m.edges.getD ei default).face0.toNat 0 +
                       (facePoints m).getD (m.edges.getD ei default).face1.toNat 0)) := by
  have hbeta : (edgePoints m (facePoints m)).getD ei 0 =
      (if (m.edges.getD ei default).face_count ≠ 2 then
        ((1 : ℚ)/2) • (m.posOf (m.edges.getD ei default).low_vertex.toNat +
                       m.posOf (m.edges.getD ei default).high_vertex.toNat)
      else
        ((1 : ℚ)/4) • (m.posOf (m.edges.getD ei default).low_vertex.toNat +
                       m.posOf (m.edges.getD ei default).high_vertex.toNat +
                       (facePoints m).getD (m.edges.getD ei default).face0.toNat 0 +
                       (facePoints m).getD (m.edges.getD ei default).face1.toNat 0)) := by
    rw [edgePoints]
    exact getD_map_lt _ m.edges ei 0 default h
  constructor
  · intro h1
    have hc : (m.edges.getD ei default).face_count ≠ 2 := by rw [h1]; decide
    rw [hbeta, if_pos hc]
  · intro h2
    have hc : ¬ (m.edges.getD ei default).face_count ≠ 2 := by rw [h2]; decide
    rw [hbeta, if_neg hc]

/-- Witness for C2: in the two-triangle model, edge 1 is a boundary edge and
gets the midpoint rule, edge 0 is interior and gets the quarter rule. -/
theorem c2_edge_point_rule_witness :
    ((edgePoints cm (facePoints cm)).getD 1 0 =
      ((1 : ℚ)/2) • (cm.posOf (cm.edges.getD 1 default).low_vertex.toNat +
                     cm.posOf (cm.edges.getD 1 default).high_vertex.toNat)) ∧
    ((edgePoints cm (facePoints cm)).getD 0 0 =
      ((1 : ℚ)/4) • (cm.posOf (cm.edges.getD 0 default).low_vertex.toNat +
                     cm.posOf (cm.edges.getD 0 default).high_vertex.toNat +
                     (facePoints cm).getD (cm.edges.getD 0 default).face0.toNat 0 +
                     (facePoints cm).getD (cm.edges.getD 0 default).face1.toNat 0)) :=
  ⟨(c2_edge_point_rule cm 1 (by decide)).1 (by decide),
   (c2_edge_point_rule cm 0 (by decide)).2 (by decide)⟩

/-! ### C6 -/

/-- C6 counterexample: `badMesh` has a face whose third vertex index (5) is
out of range for its two-element vertex list, yet a full subdivision pass
reports no error at all and returns a successful mesh, so out-of-range
indices are silently coerced into a successful result. -/
theorem c6_counterexample :
    badMesh.vertices.length = 2 ∧ (badMesh.faces.getD 0 default).idx 2 = 5 ∧
    isOkE (applyCatmullClarkSubdivision badMesh 1) = true :=
  ⟨rfl, rfl, by with_unfolding_all rfl⟩

/-- C6 amended: a negative iteration count is rejected at entry by the
assertion (modeled as a distinct error value), and this report is distinct
from the topology-collision error; out-of-range face indices are however not
detected (see the counterexample). -/
theorem c6_amended_negative_count (mesh : Mesh) (k : Int) (h : k < 0) :
    applyCatmullClarkSubdivision mesh k = Except.error assertionErrorMessage ∧
    assertionErrorMessage ≠ collisionErrorMessage := by
  constructor
  · rw [applyCatmullClarkSubdivision, if_pos h]
  · decide

/-- Witness for the amended C6 at the empty mesh and iteration count `-1`. -/
theorem c6_amended_negative_count_witness :
    ((-1 : Int) < 0) ∧
    (applyCatmullClarkSubdivision ⟨[], []⟩ (-1) = Except.error assertionErrorMessage ∧
     assertionErrorMessage ≠ collisionErrorMessage) :=
  ⟨by decide, c6_amended_negative_count ⟨[], []⟩ (-1) (by decide)⟩

/-! ### C10 -/

/-- The position-to-vertex map has pairwise distinct keys (as an
`unordered_map` does). -/
def keysNodup (m : Model) : Prop := (m.positionToVertex.map Prod.fst).Nodup

instance (m : Model) : Decidable (keysNodup m) := by
  unfold keysNodup; infer_instance

/-- C10: `moveVertex` erases the old position key before the collision check,
so moving a vertex onto its own current position always succeeds, and
whenever the collision error is raised the map at the moment of the throw
(namely `eraseKey positionToVertex oldPosition`, the map the check reads) has
already lost the old-position key. -/
theorem c10_move_erases_before_check (m : Model) (i : Nat) (q : Vec3)
    (h : keysNodup m) :
    (∃ m2, m.moveVertex i (m.posOf i) = Except.ok m2) ∧
    (∀ s, m.moveVertex i q = Except.error s →
      lookupKey (eraseKey m.positionToVertex (m.posOf i)) (m.posOf i) = none) := by
  have hnone : lookupKey (eraseKey m.positionToVertex (m.posOf i)) (m.posOf i) = none :=
    lookup_eraseKey_self _ _ h
  constructor
  · simp only [Model.moveVertex, Model.posOf] at hnone ⊢
    rw [hnone]
    exact ⟨_, rfl⟩
  · intro s _
    exact hnone

/-- Witness for C10 on the two-triangle model. -/
theorem c10_move_erases_before_check_witness :
    keysNodup cm ∧ (∃ m2, cm.moveVertex 0 (cm.posOf 0) = Except.ok m2) :=
  ⟨by decide, (c10_move_erases_before_check cm 0 (cm.posOf 1) (by decide)).1⟩

/-! ### C5 -/

/-- Consistency of the position-to-vertex map with the vertex array: every
entry points at an in-range vertex holding that position, every vertex's
current position is mapped back to it, and keys are unique.  This is the
state `meshToModel` establishes and every successful `moveVertex` preserves. -/
def mapConsistent (m : Model) : Prop :=
  (∀ pr ∈ m.positionToVertex,
    pr.2 < m.vertices.length ∧ (m.vertices.getD pr.2 default).position = pr.1) ∧
  (∀ j, j < m.vertices.length →
    lookupKey m.positionToVertex (m.posOf j) = some j) ∧
  keysNodup m

instance (m : Model) : Decidable (mapConsistent m) := by
  unfold mapConsistent keysNodup Model.posOf; infer_instance

/-- C5: on a consistent model the position-keyed move raises the collision
error exactly when the destination coincides with the current position of a
distinct vertex; and when the repositioning pass of a subdivision iteration
raises, the iteration returns that error and no output mesh. -/
theorem c5_collision_error_iff :
    (∀ (m : Model) (i : Nat) (q : Vec3), i < m.vertices.length → mapConsistent m →
      ((∃ s, m.moveVertex i q = Except.error s) ↔
        ∃ j, j < m.vertices.length ∧ j ≠ i ∧ m.posOf j = q)) ∧
    (∀ (m : Model) (s : String),
      repositionAll m (facePoints m) (m.vertices.map (·.position)) = Except.error s →
      applyCatmullClarkSubdivisionOnce m = Except.error s) := by
  constructor
  · intro m i q hi hcons
    obtain ⟨h1, h2, h3⟩ := hcons
    have herr : (∃ s, m.moveVertex i q = Except.error s) ↔
        (lookupKey (eraseKey m.positionToVertex (m.posOf i)) q).isSome = true := by
      simp only [Model.moveVertex, Model.posOf]
      by_cases hs : (lookupKey (eraseKey m.positionToVertex
          ((m.vertices.getD i default).position)) q).isSome = true
      · rw [if_pos hs]
        exact ⟨fun _ => hs, fun _ => ⟨_, rfl⟩⟩
      · rw [if_neg hs]
        constructor
        · rintro ⟨s, hcontra⟩
          cases hcontra
        · intro hcontra
          exact absurd hcontra hs
    rw [herr]
    by_cases hq : q = m.posOf i
    · rw [hq, lookup_eraseKey_self _ _ h3]
      constructor
      · intro hcontra
        cases hcontra
      · rintro ⟨j, hj, hne, hpos⟩
        have hji := h2 j hj
        have hii := h2 i hi
        rw [hpos] at hji
        rw [hji] at hii
        exact absurd (Option.some.inj hii) hne
    · rw [lookup_eraseKey_ne _ _ hq]
      constructor
      · intro hsome
        obtain ⟨j, hj⟩ := Option.isSome_iff_exists.mp hsome
        have hmem := lookupKey_some_mem hj
        obtain ⟨hjlt, hjpos⟩ := h1 (q, j) hmem
        have hjpos' : (m.vertices.getD j default).position = q := hjpos
        refine ⟨j, hjlt, ?_, hjpos'⟩
        intro hne
        apply hq
        rw [← hjpos', hne]
        rfl
      · rintro ⟨j, hj, hne, hpos⟩
        have hji := h2 j hj
        rw [hpos] at hji
        rw [hji]
        rfl
  · intro m s h
    rw [applyCatmullClarkSubdivisionOnce]
    rw [h]

/-- Witness for C5: in the two-triangle model, moving vertex 0 onto the
current position of vertex 1 raises the error. -/
theorem c5_collision_error_iff_witness :
    (0 < cm.vertices.length ∧ mapConsistent cm) ∧
    (∃ s, cm.moveVertex 0 (cm.posOf 1) = Except.error s) :=
  ⟨⟨by decide, by decide⟩,
   (c5_collision_error_iff.1 cm 0 (cm.posOf 1) (by decide) (by decide)).mpr
     ⟨1, by decide, by decide, rfl⟩⟩

/-! ### C1 -/

theorem listModify_oob {α : Type} :
    ∀ (l : List α) (i : Nat) (f : α → α), l.length ≤ i → listModify l i f = l
  | [], _, _, _ => rfl
  | a :: t, 0, f, h => absurd h (by simp)
  | a :: t, i + 1, f, h => by
    rw [listModify, listModify_oob t i f (Nat.le_of_succ_le_succ (by simpa using h))]

/-- A successful `moveVertex` only rewrites the moved vertex's position and
re-keys the position map. -/
theorem moveVertex_ok_eq {m m' : Model} {i : Nat} {p : Vec3}
    (h : m.moveVertex i p = Except.ok m') :
    m'.vertices = listModify m.vertices i (fun v => { v with position := p }) ∧
    m'.edges = m.edges ∧ m'.faces = m.faces ∧
    m'.vertexPairToEdge = m.vertexPairToEdge := by
  simp only [Model.moveVertex] at h
  split at h
  · cases h
  · cases h
    exact ⟨rfl, rfl, rfl, rfl⟩

/-- Rewriting a vertex's position leaves every record's incidence lists
untouched. -/
theorem getD_listModify_setPos (l : List VertexRecord) (i : Nat) (p : Vec3) (j : Nat) :
    ((listModify l i (fun v => { v with position := p })).getD j default).faces
      = (l.getD j default).faces ∧
    ((listModify l i (fun v => { v with position := p })).getD j default).edges
      = (l.getD j default).edges := by
  by_cases hji : j = i
  · subst hji
    by_cases hlt : j < l.length
    · rw [getD_listModify_self _ _ _ _ hlt]
      exact ⟨rfl, rfl⟩
    · rw [listModify_oob _ _ _ (le_of_not_lt hlt)]
      exact ⟨rfl, rfl⟩
  · rw [getD_listModify_ne _ _ _ _ _ hji]
    exact ⟨rfl, rfl⟩

/-- The repositioning formula reads only incidence lists, edge endpoints and
the snapshot, so it is unchanged by position rewrites. -/
theorem newVertexPosition_congr {m m' : Model} (fps oldPos : List Vec3)
    (hfaces : ∀ j, (m'.vertices.getD j default).faces = (m.vertices.getD j default).faces)
    (hedges : ∀ j, (m'.vertices.getD j default).edges = (m.vertices.getD j default).edges)
    (he : m'.edges = m.edges) (j : Nat) :
    newVertexPosition m' fps oldPos j = newVertexPosition m fps oldPos j := by
  simp only [newVertexPosition]
  rw [hfaces j, hedges j, he]

/-- Core induction for the repositioning loop: a successful run leaves the
repositioning formula of every vertex unchanged, does not touch vertices
outside the index list, and sets every processed vertex to the formula value
computed over the state at loop entry. -/
theorem repositionGo_spec (fps oldPos : List Vec3) :
    ∀ (l : List Nat) (m m' : Model),
      repositionGo fps oldPos m l = Except.ok m' →
      (∀ j, newVertexPosition m' fps oldPos j = newVertexPosition m fps oldPos j) ∧
      (∀ j, j ∉ l → m'.posOf j = m.posOf j) ∧
      (∀ j, j ∈ l → j < m.vertices.length →
        m'.posOf j = newVertexPosition m fps oldPos j) ∧
      m'.vertices.length = m.vertices.length
  | [], m, m', h => by
    cases h
    exact ⟨fun _ => rfl, fun _ _ => rfl, fun j hj _ => absurd hj (List.not_mem_nil j),
      rfl⟩
  | i :: rest, m, m', h => by
    rw [repositionGo] at h
    cases hmv : m.moveVertex i (newVertexPosition m fps oldPos i) with
    | error s => rw [hmv] at h; cases h
    | ok m2 =>
      rw [hmv] at h
      obtain ⟨hnvp, hout, hin, hlen⟩ := repositionGo_spec fps oldPos rest m2 m' h
      obtain ⟨hverts, hedges, _, _⟩ := moveVertex_ok_eq hmv
      have hfields := fun j =>
        getD_listModify_setPos m.vertices i (newVertexPosition m fps oldPos i) j
      have hnvp2 : ∀ j, newVertexPosition m2 fps oldPos j =
          newVertexPosition m fps oldPos j := by
        intro j
        refine newVertexPosition_congr fps oldPos ?_ ?_ hedges j
        · intro j2; rw [hverts]; exact (hfields j2).1
        · intro j2; rw [hverts]; exact (hfields j2).2
      have hlen2 : m2.vertices.length = m.vertices.length := by
        rw [hverts, listModify_length]
      refine ⟨?_, ?_, ?_, ?_⟩
      · intro j
        rw [hnvp j, hnvp2 j]
      · intro j hj
        have hjne : j ≠ i := fun hc => hj (hc ▸ List.mem_cons_self i rest)
        have hjrest : j ∉ rest := fun hc => hj (List.mem_cons_of_mem i hc)
        rw [hout j hjrest, Model.posOf, hverts, getD_listModify_ne _ _ _ _ _ hjne]
        rfl
      · intro j hj hjlt
        rcases List.mem_cons.mp hj with hji | hjrest
        · subst hji
          by_cases hjr : j ∈ rest
          · rw [hin j hjr (hlen2 ▸ hjlt), hnvp2 j]
          · rw [hout j hjr, Model.posOf, hverts, getD_listModify_self _ _ _ _ hjlt]
        · rw [hin j hjrest (hlen2 ▸ hjlt), hnvp2 j]
      · rw [hlen, hlen2]

theorem foldl_add_f_eq_sum_map {α : Type} {M : Type} [AddCommMonoid M] (f : α → M) :
    ∀ (l : List α) (a : M), l.foldl (fun acc c => acc + f c) a = a + (l.map f).sum
  | [], a => by simp
  | h :: t, a => by
    rw [List.foldl_cons, foldl_add_f_eq_sum_map f t (a + f h), List.map_cons,
      List.sum_cons, add_assoc]

theorem getD_map_position :
    ∀ (l : List VertexRecord) (j : Nat),
      (l.map (·.position)).getD j 0 = (l.getD j default).position
  | [], 0 => rfl
  | [], j + 1 => rfl
  | v :: t, 0 => rfl
  | v :: t, j + 1 => getD_map_position t j

/-- Spec-side repositioning formula, as amended: `n` is the number of
incident faces, `avgFace` the mean of the face points over the vertex's
incident-face list, and `avgEdgeMidpoint` the mean of the incident edges'
midpoints over the vertex's incident-edge list — in which an edge appears
once per recorded face-side incidence (a multiset, not a set) — with all
midpoints taken over the pre-subdivision snapshot positions of the model
`m`. -/
def specVertexReposition (m : Model) (i : Nat) : Vec3 :=
  let v := m.vertices.getD i default
  let n : ℚ := (v.faces.length : ℚ)
  let avgFace :=
    ((v.faces.map (fun fj => (facePoints m).getD fj 0)).sum).divNat v.faces.length
  let avgEdgeMidpoint :=
    ((v.edges.map (fun ei =>
      ((1 : ℚ)/2) • (m.posOf (m.edges.getD ei default).low_vertex.toNat +
                     m.posOf (m.edges.getD ei default).high_vertex.toNat))).sum).divNat
      v.edges.length
  ((n - 3)/n) • v.position + (1/n) • avgFace + (2/n) • avgEdgeMidpoint

/-- The claim's repositioning formula as stated: identical to
`specVertexReposition` except that `avgEdgeMidpoint` averages over the set of
incident edges, each distinct edge counted once. -/
def claimVertexReposition (m : Model) (i : Nat) : Vec3 :=
  let v := m.vertices.getD i default
  let n : ℚ := (v.faces.length : ℚ)
  let distinctEdges := v.edges.dedup
  let avgFace :=
    ((v.faces.map (fun fj => (facePoints m).getD fj 0)).sum).divNat v.faces.length
  let avgEdgeMidpoint :=
    ((distinctEdges.map (fun ei =>
      ((1 : ℚ)/2) • (m.posOf (m.edges.getD ei default).low_vertex.toNat +
                     m.posOf (m.edges.getD ei default).high_vertex.toNat))).sum).divNat
      distinctEdges.length
  ((n - 3)/n) • v.position + (1/n) • avgFace + (2/n) • avgEdgeMidpoint

/-- The code's per-vertex formula coincides with the (amended) spec-side
formula when fed the face points and the snapshot of the model's positions. -/
theorem newVertexPosition_eq_spec (m : Model) (i : Nat) :
    newVertexPosition m (facePoints m) (m.vertices.map (·.position)) i =
      specVertexReposition m i := by
  simp only [newVertexPosition, specVertexReposition, foldl_add_f_eq_sum_map,
    zero_add, getD_map_position]
  rfl

/-- The repositioned model produced on the two-triangle example. -/
def cmR : Model :=
  (repositionAll cm (facePoints cm) (cm.vertices.map (·.position))).toOption.getD default

/-- C1 counterexample: on two triangles sharing an edge, the repositioning
pass succeeds, but vertex 0's new position differs from the claimed formula
in which every incident edge is counted once: the shared edge appears twice
in the vertex's incident-edge list, and the code averages with that
multiplicity. -/
theorem c1_counterexample :
    repositionAll cm (facePoints cm) (cm.vertices.map (·.position)) = Except.ok cmR ∧
    cmR.posOf 0 ≠ claimVertexReposition cm 0 :=
  ⟨by with_unfolding_all rfl, by with_unfolding_all decide⟩

/-- C1 amended: when the repositioning pass of the subdivision step succeeds,
every vertex ends at `m1*oldPosition + m2*avgFace + m3*avgEdgeMidpoint` with
`m1=(n-3)/n`, `m2=1/n`, `m3=2/n`, `n` the number of incident faces, `avgFace`
the mean of the incident faces' face points, and `avgEdgeMidpoint` the mean
of the incident edges' snapshot midpoints taken over the vertex's
incident-edge list with multiplicity (one entry per face-side incidence, not
one per distinct edge); the right-hand side reads only the model as it was
before any vertex moved, so each new position depends only on that
snapshot. -/
theorem c1_reposition_formula (m m' : Model)
    (h : repositionAll m (facePoints m) (m.vertices.map (·.position)) = Except.ok m')
    (i : Nat) (hi : i < m.vertices.length) :
    m'.posOf i = specVertexReposition m i := by
  obtain ⟨_, _, hin, _⟩ := repositionGo_spec _ _ _ _ _ h
  rw [hin i (List.mem_range.mpr hi) hi, newVertexPosition_eq_spec]

/-- Witness for the amended C1 on the two-triangle model, vertex 0. -/
theorem c1_reposition_formula_witness :
    (repositionAll cm (facePoints cm) (cm.vertices.map (·.position)) = Except.ok cmR ∧
     0 < cm.vertices.length) ∧
    cmR.posOf 0 = specVertexReposition cm 0 :=
  ⟨⟨by with_unfolding_all rfl, by decide⟩,
   c1_reposition_formula cm cmR (by with_unfolding_all rfl) 0 (by decide)⟩

/-! ### C7 -/

theorem getD_mem {α : Type} : ∀ (l : List α) (i : Nat) (d : α), i < l.length →
    l.getD i d ∈ l
  | a :: t, 0, d, _ => List.mem_cons_self a t
  | a :: t, i + 1, d, h =>
    List.mem_cons_of_mem a (getD_mem t i d (Nat.lt_of_succ_lt_succ (by simpa using h)))

/-- `meshToModel` as a function of the per-face stream of
(quad flag, corner positions) pairs — everything the builder reads. -/
def modelOfStream (l : List (Bool × List Vec3)) : Model :=
  l.foldl (fun m pr => addFaceCore m pr.1 pr.2) emptyModel

theorem meshToModel_eq_modelOfStream (mesh : Mesh) :
    meshToModel mesh =
      modelOfStream (mesh.faces.map (fun f => (f.isQuad, cornerPositionsOf mesh f))) := by
  rw [meshToModel, modelOfStream, List.foldl_map]

/-- The deduplicated vertex list: first occurrence of every position kept, in
order of first appearance. -/
def dedupVerts (vs : List Vertex) : List Vertex :=
  vs.foldl
    (fun acc v => if acc.any (fun w => w.position = v.position) then acc else acc ++ [v]) []

/-- Index of the first vertex at a given position. -/
def firstPosIdx : List Vertex → Vec3 → Nat
  | [], _ => 0
  | v :: rest, p => if v.position = p then 0 else firstPosIdx rest p + 1

/-- The deduplicated equivalent mesh: vertices sharing an exact position are
merged into the first such entry and all face indices are rewritten. -/
def dedupMesh (mesh : Mesh) : Mesh :=
  let dv := dedupVerts mesh.vertices
  ⟨dv, mesh.faces.map (fun f =>
    ⟨f.isQuad,
     firstPosIdx dv (mesh.vertices.getD f.i0 default).position,
     firstPosIdx dv (mesh.vertices.getD f.i1 default).position,
     firstPosIdx dv (mesh.vertices.getD f.i2 default).position,
     firstPosIdx dv (mesh.vertices.getD f.i3 default).position⟩)⟩

theorem dedupVerts_go_mem (p : Vec3) :
    ∀ (vs acc : List Vertex),
      ((∃ w ∈ acc, w.position = p) ∨ (∃ v ∈ vs, v.position = p)) →
      ∃ w ∈ vs.foldl
        (fun acc2 v => if acc2.any (fun w => w.position = v.position) then acc2
          else acc2 ++ [v]) acc, w.position = p
  | [], acc, h => by
    rcases h with hacc | hvs
    · exact hacc
    · obtain ⟨v, hv, _⟩ := hvs
      cases hv
  | v :: rest, acc, h => by
    rw [List.foldl_cons]
    apply dedupVerts_go_mem p rest
    by_cases hany : acc.any (fun w => w.position = v.position)
    · rw [if_pos hany]
      rcases h with hacc | hvs
      · exact Or.inl hacc
      · obtain ⟨u, hu, hup⟩ := hvs
        rcases List.mem_cons.mp hu with hu1 | hu2
        · subst hu1
          obtain ⟨w, hw, hwp⟩ := List.any_eq_true.mp hany
          exact Or.inl ⟨w, hw, by rw [of_decide_eq_true hwp, hup]⟩
        · exact Or.inr ⟨u, hu2, hup⟩
    · rw [if_neg hany]
      rcases h with hacc | hvs
      · obtain ⟨w, hw, hwp⟩ := hacc
        exact Or.inl ⟨w, List.mem_append_left _ hw, hwp⟩
      · obtain ⟨u, hu, hup⟩ := hvs
        rcases List.mem_cons.mp hu with hu1 | hu2
        · subst hu1
          exact Or.inl ⟨u, List.mem_append_right _ (List.mem_singleton.mpr rfl), hup⟩
        · exact Or.inr ⟨u, hu2, hup⟩

theorem dedupVerts_mem (vs : List Vertex) (p : Vec3) (h : ∃ v ∈ vs, v.position = p) :
    ∃ w ∈ dedupVerts vs, w.position = p :=
  dedupVerts_go_mem p vs [] (Or.inr h)

theorem firstPosIdx_getD (p : Vec3) :
    ∀ (vs : List Vertex), (∃ w ∈ vs, w.position = p) →
      (vs.getD (firstPosIdx vs p) default).position = p
  | [], h => by
    obtain ⟨w, hw, _⟩ := h
    cases hw
  | v :: rest, h => by
    rw [firstPosIdx]
    by_cases hv : v.position = p
    · rw [if_pos hv]
      exact hv
    · rw [if_neg hv]
      apply firstPosIdx_getD p rest
      obtain ⟨w, hw, hwp⟩ := h
      rcases List.mem_cons.mp hw with hw1 | hw2
      · exact absurd (hw1 ▸ hwp) hv
      · exact ⟨w, hw2, hwp⟩

/-- Whether every used corner index of every face is in range of the vertex
list. -/
def meshIndicesInRange (mesh : Mesh) : Prop :=
  ∀ f ∈ mesh.faces, ∀ i, i < f.cornerCount → f.idx i < mesh.vertices.length

instance (mesh : Mesh) : Decidable (meshIndicesInRange mesh) := by
  unfold meshIndicesInRange; infer_instance

theorem cornerPositionsOf_dedup (mesh : Mesh) (f : Face)
    (hf : f ∈ mesh.faces) (h : meshIndicesInRange mesh) :
    cornerPositionsOf (dedupMesh mesh)
      ⟨f.isQuad,
       firstPosIdx (dedupVerts mesh.vertices) (mesh.vertices.getD f.i0 default).position,
       firstPosIdx (dedupVerts mesh.vertices) (mesh.vertices.getD f.i1 default).position,
       firstPosIdx (dedupVerts mesh.vertices) (mesh.vertices.getD f.i2 default).position,
       firstPosIdx (dedupVerts mesh.vertices) (mesh.vertices.getD f.i3 default).position⟩ =
    cornerPositionsOf mesh f := by
  unfold cornerPositionsOf
  apply List.map_congr_left
  intro i hi
  have hic : i < f.cornerCount := by
    have := List.mem_range.mp hi
    simpa [Face.cornerCount] using this
  have hrange := h f hf i hic
  have hpos : ∃ w ∈ dedupVerts mesh.vertices,
      w.position = (mesh.vertices.getD (f.idx i) default).position :=
    dedupVerts_mem _ _ ⟨_, getD_mem _ _ _ hrange, rfl⟩
  have hfirst := firstPosIdx_getD _ (dedupVerts mesh.vertices) hpos
  have h4 : i < 4 := lt_of_lt_of_le hic (by unfold Face.cornerCount; split <;> omega)
  interval_cases i <;> exact hfirst

/-- C7: the Topology Builder's output depends only on the per-corner
positions: building the model from the deduplicated equivalent mesh (all
coincident vertices merged, face indices rewritten) yields exactly the same
model — same records, same index assignment, same maps. -/
theorem c7_dedup_idempotent (mesh : Mesh) (h : meshIndicesInRange mesh) :
    meshToModel (dedupMesh mesh) = meshToModel mesh := by
  rw [meshToModel_eq_modelOfStream, meshToModel_eq_modelOfStream]
  congr 1
  show ((dedupMesh mesh).faces.map (fun f => (f.isQuad, cornerPositionsOf (dedupMesh mesh) f)))
      = mesh.faces.map (fun f => (f.isQuad, cornerPositionsOf mesh f))
  have hfaces : (dedupMesh mesh).faces = mesh.faces.map (fun f =>
      ⟨f.isQuad,
       firstPosIdx (dedupVerts mesh.vertices) (mesh.vertices.getD f.i0 default).position,
       firstPosIdx (dedupVerts mesh.vertices) (mesh.vertices.getD f.i1 default).position,
       firstPosIdx (dedupVerts mesh.vertices) (mesh.vertices.getD f.i2 default).position,
       firstPosIdx (dedupVerts mesh.vertices) (mesh.vertices.getD f.i3 default).position⟩) := rfl
  rw [hfaces, List.map_map]
  apply List.map_congr_left
  intro f hf
  have hcp := cornerPositionsOf_dedup mesh f hf h
  simp only [Function.comp_apply]
  rw [hcp]

/-- A mesh with a duplicated coincident vertex (indices 0 and 3 share a
position) used to witness C7. -/
def meshDup : Mesh :=
  ⟨[⟨⟨0, 0, 0⟩⟩, ⟨⟨1, 0, 0⟩⟩, ⟨⟨0, 1, 0⟩⟩, ⟨⟨0, 0, 0⟩⟩],
   [⟨false, 0, 1, 2, 0⟩, ⟨false, 3, 1, 2, 0⟩]⟩

/-- Witness for C7 on a mesh with a duplicated coincident vertex. -/
theorem c7_dedup_idempotent_witness :
    meshIndicesInRange meshDup ∧ meshToModel (dedupMesh meshDup) = meshToModel meshDup :=
  ⟨by decide, c7_dedup_idempotent meshDup (by decide)⟩

/-! ### C3 -/

/-- Spec-side per-face vertex block: the repositioned corners, then the edge
points in cyclic order (edge `j` joins corners `j` and `j+1`), then the face
point. -/
def specFaceBlockVerts (m : Model) (fps eps : List Vec3) (fi : Nat) : List Vertex :=
  let f := m.faces.getD fi default
  let n := f.cornerCount
  ((List.range n).map (fun j => ⟨m.posOf (f.vtx j).toNat⟩)) ++
  ((List.range n).map (fun j => ⟨eps.getD (f.edg j).toNat 0⟩)) ++
  [⟨fps.getD fi 0⟩]

/-- Spec-side per-face quad block: one quad per corner `j`, listing, relative
to the block base, the previous edge point, the corner, the next edge point
and the face point. -/
def specFaceBlockFaces (m : Model) (base fi : Nat) : List Face :=
  let f := m.faces.getD fi default
  let n := f.cornerCount
  (List.range n).map (fun j =>
    ⟨true, base + n + (j + n - 1) % n, base + j, base + n + j, base + 2 * n⟩)

/-- Spec-side emission: blocks concatenated face by face, each block's
indices based at the number of vertices already emitted. -/
def specBuildGo (m : Model) (fps eps : List Vec3) :
    List Nat → Nat → List Vertex × List Face
  | [], _ => ([], [])
  | fi :: rest, base =>
    let bv := specFaceBlockVerts m fps eps fi
    let bf := specFaceBlockFaces m base fi
    let r := specBuildGo m fps eps rest (base + bv.length)
    (bv ++ r.1, bf ++ r.2)

/-- The re-tessellation loop only looks edges up (it never inserts): this
predicate says each face's cyclic vertex pairs are keys of the edge map,
mapping to the face's recorded edge of that side.  `meshToModel` establishes
it and `moveVertex` preserves it. -/
def edgeLookupConsistent (m : Model) : Prop :=
  ∀ fi, fi < m.faces.length → ∀ j, j < (m.faces.getD fi default).cornerCount →
    lookupKey m.vertexPairToEdge
      (sortPair ((m.faces.getD fi default).vtx j,
        (m.faces.getD fi default).vtx ((j + 1) % (m.faces.getD fi default).cornerCount))) =
      some ((m.faces.getD fi default).edg j).toNat

instance (m : Model) : Decidable (edgeLookupConsistent m) := by
  unfold edgeLookupConsistent; infer_instance

theorem getEdgeIndex_found {m : Model} {p : Int × Int} {k : Nat}
    (h : lookupKey m.vertexPairToEdge (sortPair p) = some k) :
    m.getEdgeIndex p = (k, m) := by
  simp only [Model.getEdgeIndex]
  rw [h]

/-- One step of the build loop, on a model satisfying the lookup invariant:
the model passes through untouched and exactly the spec-side blocks are
appended. -/
theorem buildStep_spec (m : Model) (fps eps : List Vec3) (mesh0 : Mesh) (fi : Nat)
    (hE : edgeLookupConsistent m) (hfi : fi < m.faces.length) :
    buildStep fps eps (m, mesh0) fi =
      (m, ⟨mesh0.vertices ++ specFaceBlockVerts m fps eps fi,
           mesh0.faces ++ specFaceBlockFaces m mesh0.vertices.length fi⟩) := by
  have h0 := hE fi hfi
  have hr4 : List.range 4 = [0, 1, 2, 3] := rfl
  have hr3 : List.range 3 = [0, 1, 2] := rfl
  by_cases hq : (m.faces.getD fi default).isQuad = true
  · have hcc : (m.faces.getD fi default).cornerCount = 4 := by
      rw [FaceRecord.cornerCount, if_pos hq]
    rw [hcc] at h0
    have e0 : m.getEdgeIndex
        ((m.faces.getD fi default).v0, (m.faces.getD fi default).v1) =
        ((m.faces.getD fi default).e0.toNat, m) :=
      getEdgeIndex_found (h0 0 (by omega))
    have e1 : m.getEdgeIndex
        ((m.faces.getD fi default).v1, (m.faces.getD fi default).v2) =
        ((m.faces.getD fi default).e1.toNat, m) :=
      getEdgeIndex_found (h0 1 (by omega))
    have e2 : m.getEdgeIndex
        ((m.faces.getD fi default).v2, (m.faces.getD fi default).v3) =
        ((m.faces.getD fi default).e2.toNat, m) :=
      getEdgeIndex_found (h0 2 (by omega))
    have e3 : m.getEdgeIndex
        ((m.faces.getD fi default).v3, (m.faces.getD fi default).v0) =
        ((m.faces.getD fi default).e3.toNat, m) :=
      getEdgeIndex_found (h0 3 (by omega))
    simp only [buildStep, specFaceBlockVerts, specFaceBlockFaces, hcc, hq, if_true,
      e0, e1, e2, e3, hr4, List.map_cons, List.map_nil, FaceRecord.vtx, FaceRecord.edg,
      List.cons_append, List.nil_append, List.append_assoc]
    simp only [Prod.mk.injEq, Mesh.mk.injEq, true_and]
    simp only [List.append_cancel_left_eq, List.cons.injEq, Face.mk.injEq, and_true,
      true_and]
    omega
  · have hcc : (m.faces.getD fi default).cornerCount = 3 := by
      rw [FaceRecord.cornerCount, if_neg hq]
    rw [hcc] at h0
    have e0 : m.getEdgeIndex
        ((m.faces.getD fi default).v0, (m.faces.getD fi default).v1) =
        ((m.faces.getD fi default).e0.toNat, m) :=
      getEdgeIndex_found (h0 0 (by omega))
    have e1 : m.getEdgeIndex
        ((m.faces.getD fi default).v1, (m.faces.getD fi default).v2) =
        ((m.faces.getD fi default).e1.toNat, m) :=
      getEdgeIndex_found (h0 1 (by omega))
    have e2 : m.getEdgeIndex
        ((m.faces.getD fi default).v2, (m.faces.getD fi default).v0) =
        ((m.faces.getD fi default).e2.toNat, m) :=
      getEdgeIndex_found (h0 2 (by omega))
    simp only [buildStep, specFaceBlockVerts, specFaceBlockFaces, hcc, hq, if_false,
      Bool.false_eq_true, e0, e1, e2, hr3, List.map_cons, List.map_nil, FaceRecord.vtx,
      FaceRecord.edg, List.cons_append, List.nil_append, List.append_assoc]
    simp only [Prod.mk.injEq, Mesh.mk.injEq, true_and]
    simp only [List.append_cancel_left_eq, List.cons.injEq, Face.mk.injEq, and_true,
      true_and]
    omega

theorem buildGo_decomp (m : Model) (fps eps : List Vec3) (hE : edgeLookupConsistent m) :
    ∀ (fis : List Nat) (mesh0 : Mesh), (∀ fi ∈ fis, fi < m.faces.length) →
      fis.foldl (buildStep fps eps) (m, mesh0) =
        (m, ⟨mesh0.vertices ++ (specBuildGo m fps eps fis mesh0.vertices.length).1,
             mesh0.faces ++ (specBuildGo m fps eps fis mesh0.vertices.length).2⟩)
  | [], mesh0, _ => by
    simp [specBuildGo]
  | fi :: rest, mesh0, hin => by
    have hfi : fi < m.faces.length := hin fi (List.mem_cons_self fi rest)
    rw [List.foldl_cons, buildStep_spec m fps eps mesh0 fi hE hfi,
      buildGo_decomp m fps eps hE rest _ (fun fj hj => hin fj (List.mem_cons_of_mem fi hj))]
    simp only [specBuildGo, Prod.mk.injEq, Mesh.mk.injEq, true_and, List.append_assoc,
      List.length_append]

theorem specBuildGo_all_quads (m : Model) (fps eps : List Vec3) :
    ∀ (fis : List Nat) (base : Nat) (g : Face),
      g ∈ (specBuildGo m fps eps fis base).2 → g.isQuad = true
  | [], base, g => by
    intro hg
    simp [specBuildGo] at hg
  | fi :: rest, base, g => by
    intro hg
    rw [specBuildGo] at hg
    rcases List.mem_append.mp hg with hb | hr
    · simp only [specFaceBlockFaces] at hb
      obtain ⟨j, _, hje⟩ := List.mem_map.mp hb
      rw [← hje]
    · exact specBuildGo_all_quads m fps eps rest _ g hr

theorem specBuildGo_faces_length (m : Model) (fps eps : List Vec3) :
    ∀ (fis : List Nat) (base : Nat),
      (specBuildGo m fps eps fis base).2.length =
        (fis.map (fun fi => (m.faces.getD fi default).cornerCount)).sum
  | [], base => by simp [specBuildGo]
  | fi :: rest, base => by
    rw [specBuildGo]
    simp only [List.length_append, List.map_cons, List.sum_cons,
      specBuildGo_faces_length m fps eps rest]
    simp [specFaceBlockFaces]

/-- C3: on a model whose edge map contains every face's cyclic vertex pairs
(as `meshToModel` builds it), the re-tessellation emits exactly the spec-side
blocks: per original face, first the corners, then the edge points in cyclic
order, then the face point, appended with no cross-face deduplication; one
quad per corner, each listed as (previous edge point, corner, next edge
point, face point); every output face is tagged as a quad, and the output
face count is the sum of the input faces' corner counts (4 per quad, 3 per
triangle). -/
theorem c3_retessellation (m : Model) (fps eps : List Vec3)
    (hE : edgeLookupConsistent m) :
    buildNewMesh m fps eps =
      ⟨(specBuildGo m fps eps (List.range m.faces.length) 0).1,
       (specBuildGo m fps eps (List.range m.faces.length) 0).2⟩ ∧
    (∀ g ∈ (buildNewMesh m fps eps).faces, g.isQuad = true) ∧
    (buildNewMesh m fps eps).faces.length =
      ((List.range m.faces.length).map
        (fun fi => (m.faces.getD fi default).cornerCount)).sum := by
  have hdec := buildGo_decomp m fps eps hE (List.range m.faces.length) ⟨[], []⟩
    (fun fi hfi => List.mem_range.mp hfi)
  have hbuild : buildNewMesh m fps eps =
      ⟨(specBuildGo m fps eps (List.range m.faces.length) 0).1,
       (specBuildGo m fps eps (List.range m.faces.length) 0).2⟩ := by
    rw [buildNewMesh, hdec]
    simp
  refine ⟨hbuild, ?_, ?_⟩
  · intro g hg
    rw [hbuild] at hg
    exact specBuildGo_all_quads m fps eps _ _ g hg
  · rw [hbuild]
    exact specBuildGo_faces_length m fps eps _ _

/-- Witness for C3 on the repositioned two-triangle model, with the face and
edge points `applyCatmullClarkSubdivisionOnce` feeds the build loop. -/
theorem c3_retessellation_witness :
    edgeLookupConsistent cmR ∧
    buildNewMesh cmR (facePoints cm) (edgePoints cm (facePoints cm)) =
      ⟨(specBuildGo cmR (facePoints cm) (edgePoints cm (facePoints cm))
          (List.range cmR.faces.length) 0).1,
       (specBuildGo cmR (facePoints cm) (edgePoints cm (facePoints cm))
          (List.range cmR.faces.length) 0).2⟩ :=
  ⟨by with_unfolding_all decide,
   (c3_retessellation cmR (facePoints cm) (edgePoints cm (facePoints cm))
     (by with_unfolding_all decide)).1⟩

/-! ### C8 -/

/-- The face indices actually recorded in an edge's `faces[2]` array. -/
def EdgeRecord.recordedFaces (e : EdgeRecord) : List Nat :=
  if e.face_count = 0 then []
  else if e.face_count = 1 then [e.face0.toNat]
  else [e.face0.toNat, e.face1.toNat]

/-- The edge indices stored in a face record's `edges` array, in side order. -/
def faceEdgeIdxList (fr : FaceRecord) : List Nat :=
  (List.range fr.cornerCount).map (fun j => (fr.edg j).toNat)

/-- The scan-order list of face-side incidences on edge `ei`: face `fi`
appears once per side of face `fi` that references edge `ei`, faces in input
order. -/
def sideOccurrencesL (fs : List FaceRecord) (ei : Nat) : List Nat :=
  (List.range fs.length).flatMap
    (fun fi => List.replicate ((faceEdgeIdxList (fs.getD fi default)).count ei) fi)

def sideOccurrences (m : Model) (ei : Nat) : List Nat := sideOccurrencesL m.faces ei

/-- Consistency of the vertex-pair-to-edge map: every entry points at an
in-range edge whose endpoints are the (sorted) key pair. -/
def edgeMapConsistentL (pm : List ((Int × Int) × Nat)) (edges : List EdgeRecord) : Prop :=
  ∀ pr ∈ pm, pr.2 < edges.length ∧
    (edges.getD pr.2 default).low_vertex = pr.1.1 ∧
    (edges.getD pr.2 default).high_vertex = pr.1.2

/-- The C8 induction invariant of the Topology Builder, phrased on the three
fields it concerns. -/
def c8InvParts (E : List EdgeRecord) (F : List FaceRecord)
    (P : List ((Int × Int) × Nat)) : Prop :=
  edgeMapConsistentL P E ∧
  (∀ fr ∈ F, ∀ x ∈ faceEdgeIdxList fr, x < E.length) ∧
  (∀ ei, ei < E.length →
    (E.getD ei default).recordedFaces = (sideOccurrencesL F ei).take 2 ∧
    (E.getD ei default).face_count = min (sideOccurrencesL F ei).length 2 ∧
    1 ≤ (sideOccurrencesL F ei).length)

def c8Inv (m : Model) : Prop := c8InvParts m.edges m.faces m.vertexPairToEdge

/-- What C8 asserts of one edge of a built model. -/
def c8Post (m : Model) (ei : Nat) : Prop :=
  ((m.edges.getD ei default).face_count = 1 ∨
   (m.edges.getD ei default).face_count = 2) ∧
  (m.edges.getD ei default).recordedFaces = (sideOccurrences m ei).take 2 ∧
  (m.edges.getD ei default).face_count = min (sideOccurrences m ei).length 2 ∧
  (∀ fi ∈ sideOccurrences m ei, ei ∈ faceEdgeIdxList (m.faces.getD fi default))

theorem foldl_preserve {α β : Type} (P : α → Prop) (step : α → β → α) :
    ∀ (l : List β) (a : α), P a → (∀ x b, b ∈ l → P x → P (step x b)) →
      P (l.foldl step a)
  | [], a, h, _ => h
  | b :: t, a, h, hstep =>
    foldl_preserve P step t (step a b) (hstep a b (List.mem_cons_self b t) h)
      (fun x b2 hb2 => hstep x b2 (List.mem_cons_of_mem _ hb2))

theorem getVertexIndex_shape (m : Model) (p : Vec3) :
    (m.getVertexIndex p).2.edges = m.edges ∧
    (m.getVertexIndex p).2.faces = m.faces ∧
    (m.getVertexIndex p).2.vertexPairToEdge = m.vertexPairToEdge := by
  simp only [Model.getVertexIndex]
  cases lookupKey m.positionToVertex p <;> exact ⟨rfl, rfl, rfl⟩

theorem resolveVerts_shape :
    ∀ (ps : List Vec3) (m : Model),
      (resolveVerts m ps).2.edges = m.edges ∧
      (resolveVerts m ps).2.faces = m.faces ∧
      (resolveVerts m ps).2.vertexPairToEdge = m.vertexPairToEdge
  | [], m => ⟨rfl, rfl, rfl⟩
  | p :: rest, m => by
    obtain ⟨h1, h2, h3⟩ := getVertexIndex_shape m p
    obtain ⟨g1, g2, g3⟩ := resolveVerts_shape rest (m.getVertexIndex p).2
    rw [resolveVerts]
    exact ⟨g1.trans h1, g2.trans h2, g3.trans h3⟩

theorem pushVertEdge_shape (m : Model) (vi ei : Nat) :
    (pushVertEdge m vi ei).edges = m.edges ∧
    (pushVertEdge m vi ei).faces = m.faces ∧
    (pushVertEdge m vi ei).vertexPairToEdge = m.vertexPairToEdge :=
  ⟨rfl, rfl, rfl⟩

theorem getEdgeIndex_fresh {m : Model} {p : Int × Int}
    (h : lookupKey m.vertexPairToEdge (sortPair p) = none) :
    m.getEdgeIndex p =
      (m.edges.length,
       { m with edges := m.edges ++ [⟨(sortPair p).1, (sortPair p).2, 0, -1, -1⟩],
                vertexPairToEdge := (sortPair p, m.edges.length) :: m.vertexPairToEdge }) := by
  simp only [Model.getEdgeIndex]
  rw [h]

theorem resolveEdges_c8 :
    ∀ (sides : List (Nat × Nat)) (m : Model),
      edgeMapConsistentL m.vertexPairToEdge m.edges →
      edgeMapConsistentL (resolveEdges m sides).2.vertexPairToEdge
        (resolveEdges m sides).2.edges ∧
      (resolveEdges m sides).2.faces = m.faces ∧
      m.edges.length ≤ (resolveEdges m sides).2.edges.length ∧
      (∀ ei, ei < m.edges.length →
        (resolveEdges m sides).2.edges.getD ei default = m.edges.getD ei default) ∧
      (∀ ei, m.edges.length ≤ ei → ei < (resolveEdges m sides).2.edges.length →
        ((resolveEdges m sides).2.edges.getD ei default).face_count = 0 ∧
        ei ∈ (resolveEdges m sides).1) ∧
      (∀ k ∈ (resolveEdges m sides).1, k < (resolveEdges m sides).2.edges.length) ∧
      (resolveEdges m sides).1.length = sides.length
  | [], m, hE => by
    refine ⟨hE, rfl, Nat.le_refl _, fun ei _ => rfl, fun ei h1 h2 => ?_,
      fun k hk => absurd hk (List.not_mem_nil k), rfl⟩
    simp only [resolveEdges] at h2
    omega
  | (s, e) :: rest, m, hE => by
    rw [resolveEdges]
    cases hge : lookupKey m.vertexPairToEdge (sortPair ((s : Int), (e : Int))) with
    | some k =>
      have heq : m.getEdgeIndex ((s : Int), (e : Int)) = (k, m) := getEdgeIndex_found hge
      have hk : k < m.edges.length :=
        (hE _ (lookupKey_some_mem hge)).1
      rw [heq]
      dsimp only
      have hrec := resolveEdges_c8 rest
        (pushVertEdge (pushVertEdge m s k) e k) hE
      obtain ⟨r1, r2, r3, r4, r5, r6, r7⟩ := hrec
      refine ⟨r1, r2, r3, r4, ?_, ?_, ?_⟩
      · intro ei h1 h2
        obtain ⟨hc, hm⟩ := r5 ei h1 h2
        exact ⟨hc, List.mem_cons_of_mem _ hm⟩
      · intro k2 hk2
        rcases List.mem_cons.mp hk2 with hk2 | hk2
        · subst hk2
          exact lt_of_lt_of_le hk r3
        · exact r6 k2 hk2
      · simp [r7]
    | none =>
      have heq := getEdgeIndex_fresh hge
      rw [heq]
      set sp := sortPair ((s : Int), (e : Int)) with hsp
      set mN : Model :=
        { m with edges := m.edges ++ [⟨sp.1, sp.2, 0, -1, -1⟩],
                 vertexPairToEdge := (sp, m.edges.length) :: m.vertexPairToEdge } with hmN
      dsimp only
      have hlenN : mN.edges.length = m.edges.length + 1 := by
        simp [hmN]
      have hNe : mN.edges = m.edges ++ [⟨sp.1, sp.2, 0, -1, -1⟩] := rfl
      have hEN : edgeMapConsistentL mN.vertexPairToEdge mN.edges := by
        intro pr hpr
        rcases List.mem_cons.mp hpr with hpr | hpr
        · subst hpr
          refine ⟨?_, ?_, ?_⟩
          · show m.edges.length < mN.edges.length
            rw [hlenN]
            omega
          · show (mN.edges.getD m.edges.length default).low_vertex = sp.1
            rw [hNe, getD_append_right _ _ _ _ (Nat.le_refl _), Nat.sub_self]
            rfl
          · show (mN.edges.getD m.edges.length default).high_vertex = sp.2
            rw [hNe, getD_append_right _ _ _ _ (Nat.le_refl _), Nat.sub_self]
            rfl
        · obtain ⟨h1, h2, h3⟩ := hE pr hpr
          refine ⟨?_, ?_, ?_⟩
          · show pr.2 < mN.edges.length
            rw [hlenN]
            omega
          · show (mN.edges.getD pr.2 default).low_vertex = pr.1.1
            rw [hNe, getD_append_left _ _ _ _ h1]
            exact h2
          · show (mN.edges.getD pr.2 default).high_vertex = pr.1.2
            rw [hNe, getD_append_left _ _ _ _ h1]
            exact h3
      have hrec := resolveEdges_c8 rest
        (pushVertEdge (pushVertEdge mN s m.edges.length) e m.edges.length) hEN
      have hlen2 : (pushVertEdge (pushVertEdge mN s m.edges.length) e
          m.edges.length).edges.length = m.edges.length + 1 := hlenN
      obtain ⟨r1, r2, r3, r4, r5, r6, r7⟩ := hrec
      have hfaceN : mN.faces = m.faces := by simp [hmN]
      refine ⟨r1, r2.trans hfaceN, ?_, ?_, ?_, ?_, ?_⟩
      · calc m.edges.length ≤ mN.edges.length := by omega
          _ ≤ _ := r3
      · intro ei hei
        rw [r4 ei (by omega)]
        show (m.edges ++ [(⟨sp.1, sp.2, 0, -1, -1⟩ : EdgeRecord)]).getD ei default
          = m.edges.getD ei default
        exact getD_append_left _ _ _ _ hei
      · intro ei h1 h2
        by_cases hcase : ei = m.edges.length
        · subst hcase
          constructor
          · rw [r4 m.edges.length (by omega)]
            show ((m.edges ++ [(⟨sp.1, sp.2, 0, -1, -1⟩ : EdgeRecord)]).getD
              m.edges.length default).face_count = 0
            rw [getD_append_right _ _ _ _ (Nat.le_refl _), Nat.sub_self]
            rfl
          · exact List.mem_cons_self _ _
        · have hbig : mN.edges.length ≤ ei := by omega
          obtain ⟨hc, hm⟩ := r5 ei hbig h2
          exact ⟨hc, List.mem_cons_of_mem _ hm⟩
      · intro k2 hk2
        rcases List.mem_cons.mp hk2 with hk2 | hk2
        · subst hk2
          calc m.edges.length < mN.edges.length := by omega
            _ ≤ _ := r3
        · exact r6 k2 hk2
      · simp [r7]

/-- `k`-fold application of the saturating face insertion. -/
def addIter (fi : Nat) : Nat → EdgeRecord → EdgeRecord
  | 0, e2 => e2
  | k + 1, e2 => addIter fi k (e2.addFaceIdx fi)

theorem addFaceIdx_step (e : EdgeRecord) (L : List Nat) (fi : Nat)
    (h1 : e.recordedFaces = L.take 2) (h2 : e.face_count = min L.length 2) :
    (e.addFaceIdx fi).recordedFaces = (L ++ [fi]).take 2 ∧
    (e.addFaceIdx fi).face_count = min (L ++ [fi]).length 2 ∧
    (e.addFaceIdx fi).low_vertex = e.low_vertex ∧
    (e.addFaceIdx fi).high_vertex = e.high_vertex := by
  rcases L with _ | ⟨a, _ | ⟨b, L2⟩⟩
  · have hc : e.face_count = 0 := by simpa using h2
    rw [EdgeRecord.addFaceIdx, if_neg (by omega), if_pos hc]
    refine ⟨?_, ?_, rfl, rfl⟩
    · simp [EdgeRecord.recordedFaces]
    · simp
  · have hc : e.face_count = 1 := by simpa using h2
    have ha : e.face0.toNat = a := by
      have := h1
      rw [EdgeRecord.recordedFaces, if_neg (by omega), if_pos hc] at this
      simpa using this
    rw [EdgeRecord.addFaceIdx, if_neg (by omega), if_neg (by omega)]
    refine ⟨?_, ?_, rfl, rfl⟩
    · simp [EdgeRecord.recordedFaces, hc, ha]
    · simp [hc]
  · have hc : e.face_count = 2 := by
      rw [h2]
      simp [Nat.min_def]
    rw [EdgeRecord.addFaceIdx, if_pos (by omega)]
    refine ⟨?_, ?_, rfl, rfl⟩
    · rw [h1]
      simp
    · rw [hc]
      simp [Nat.min_def]
  
theorem addIter_spec (fi : Nat) :
    ∀ (k : Nat) (e : EdgeRecord) (L : List Nat),
      e.recordedFaces = L.take 2 → e.face_count = min L.length 2 →
      (addIter fi k e).recordedFaces = (L ++ List.replicate k fi).take 2 ∧
      (addIter fi k e).face_count = min (L.length + k) 2 ∧
      (addIter fi k e).low_vertex = e.low_vertex ∧
      (addIter fi k e).high_vertex = e.high_vertex
  | 0, e, L, h1, h2 => by
    rw [addIter]
    refine ⟨by simpa using h1, by simpa using h2, rfl, rfl⟩
  | k + 1, e, L, h1, h2 => by
    rw [addIter]
    obtain ⟨s1, s2, s3, s4⟩ := addFaceIdx_step e L fi h1 h2
    obtain ⟨t1, t2, t3, t4⟩ := addIter_spec fi k (e.addFaceIdx fi) (L ++ [fi]) s1 s2
    refine ⟨?_, ?_, t3.trans s3, t4.trans s4⟩
    · rw [t1, List.append_assoc]
      simp only [List.singleton_append, ← List.replicate_succ]
    · rw [t2, List.length_append, List.length_singleton]
      omega

theorem edgeFold_shape (fi : Nat) :
    ∀ (eis : List Nat) (m : Model),
      (eis.foldl (fun mm e2 => edgeAddFace mm e2 fi) m).faces = m.faces ∧
      (eis.foldl (fun mm e2 => edgeAddFace mm e2 fi) m).edges.length = m.edges.length ∧
      (eis.foldl (fun mm e2 => edgeAddFace mm e2 fi) m).vertexPairToEdge =
        m.vertexPairToEdge ∧
      (eis.foldl (fun mm e2 => edgeAddFace mm e2 fi) m).vertices = m.vertices
  | [], m => ⟨rfl, rfl, rfl, rfl⟩
  | e2 :: rest, m => by
    rw [List.foldl_cons]
    obtain ⟨h1, h2, h3, h4⟩ := edgeFold_shape fi rest (edgeAddFace m e2 fi)
    refine ⟨h1, ?_, h3, h4⟩
    rw [h2]
    exact listModify_length _ _ _

theorem edgeFold_getD (fi : Nat) :
    ∀ (eis : List Nat) (m : Model) (ei : Nat), ei < m.edges.length →
      (eis.foldl (fun mm e2 => edgeAddFace mm e2 fi) m).edges.getD ei default =
        addIter fi (eis.count ei) (m.edges.getD ei default)
  | [], m, ei, _ => by
    rw [List.foldl_nil, List.count_nil, addIter]
  | e2 :: rest, m, ei, hei => by
    rw [List.foldl_cons]
    have hlen : ei < (edgeAddFace m e2 fi).edges.length := by
      show ei < (listModify m.edges e2 _).length
      rw [listModify_length]
      exact hei
    rw [edgeFold_getD fi rest (edgeAddFace m e2 fi) ei hlen]
    by_cases hcase : e2 = ei
    · subst hcase
      rw [List.count_cons_self]
      have : (edgeAddFace m e2 fi).edges.getD e2 default =
          (m.edges.getD e2 default).addFaceIdx fi :=
        getD_listModify_self _ _ _ _ hei
      rw [this]
      rfl
    · rw [List.count_cons_of_ne (by omega)]
      have : (edgeAddFace m e2 fi).edges.getD ei default = m.edges.getD ei default :=
        getD_listModify_ne _ _ _ _ _ (fun hc => hcase hc.symm)
      rw [this]

theorem vertFold_shape (fi : Nat) :
    ∀ (vis : List Nat) (m : Model),
      (vis.foldl (fun mm vi => pushVertFace mm vi fi) m).edges = m.edges ∧
      (vis.foldl (fun mm vi => pushVertFace mm vi fi) m).faces = m.faces ∧
      (vis.foldl (fun mm vi => pushVertFace mm vi fi) m).vertexPairToEdge =
        m.vertexPairToEdge
  | [], m => ⟨rfl, rfl, rfl⟩
  | vi :: rest, m => by
    rw [List.foldl_cons]
    exact vertFold_shape fi rest (pushVertFace m vi fi)

theorem bindCongr {α β : Type} {l : List α} {f g : α → List β}
    (h : ∀ a ∈ l, f a = g a) : l.flatMap f = l.flatMap g := by
  induction l with
  | nil => rfl
  | cons a t ih =>
    rw [List.flatMap_cons, List.flatMap_cons, h a (List.mem_cons_self a t),
      ih (fun b hb => h b (List.mem_cons_of_mem a hb))]

theorem sideOccL_append (fs : List FaceRecord) (fr : FaceRecord) (ei : Nat) :
    sideOccurrencesL (fs ++ [fr]) ei =
      sideOccurrencesL fs ei ++
        List.replicate ((faceEdgeIdxList fr).count ei) fs.length := by
  unfold sideOccurrencesL
  rw [List.length_append, List.length_singleton, List.range_succ, List.flatMap_append]
  congr 1
  · apply bindCongr
    intro fi hfi
    rw [getD_append_left _ _ _ _ (List.mem_range.mp hfi)]
  · rw [List.flatMap_cons, List.flatMap_nil, List.append_nil,
      getD_append_right _ _ _ _ (Nat.le_refl _), Nat.sub_self]
    rfl

theorem sideOccL_entries_lt (fs : List FaceRecord) (ei : Nat) :
    ∀ fi ∈ sideOccurrencesL fs ei, fi < fs.length := by
  intro fi hfi
  unfold sideOccurrencesL at hfi
  obtain ⟨a, ha, hfa⟩ := List.mem_flatMap.mp hfi
  rw [List.eq_of_mem_replicate hfa]
  exact List.mem_range.mp ha

theorem sideOccL_mem_ref (fs : List FaceRecord) (ei : Nat) :
    ∀ fi ∈ sideOccurrencesL fs ei, ei ∈ faceEdgeIdxList (fs.getD fi default) := by
  intro fi hfi
  unfold sideOccurrencesL at hfi
  obtain ⟨a, _, hfa⟩ := List.mem_flatMap.mp hfi
  have hcount : 0 < (faceEdgeIdxList (fs.getD a default)).count ei := by
    by_contra hc
    rw [Nat.eq_zero_of_not_pos hc] at hfa
    exact absurd hfa (by simp)
  rw [List.eq_of_mem_replicate hfa]
  exact List.count_pos_iff_mem.mp hcount

theorem sideOccL_nil_of_big (fs : List FaceRecord) (ei E0 : Nat)
    (h : ∀ fr ∈ fs, ∀ x ∈ faceEdgeIdxList fr, x < E0) (hE0 : E0 ≤ ei) :
    sideOccurrencesL fs ei = [] := by
  unfold sideOccurrencesL
  rw [List.flatMap_eq_nil_iff]
  intro fi hfi
  have hcount : (faceEdgeIdxList (fs.getD fi default)).count ei = 0 := by
    rw [List.count_eq_zero]
    intro hmem
    have := h _ (getD_mem _ _ _ (List.mem_range.mp hfi)) ei hmem
    omega
  rw [hcount]
  rfl

theorem rangeMapGetD {α : Type} (d : α) :
    ∀ (l : List α), (List.range l.length).map (fun j => l.getD j d) = l
  | [] => rfl
  | a :: t => by
    rw [List.length_cons, List.range_succ_eq_map, List.map_cons, List.map_map]
    congr 1
    have : ((fun j => (a :: t).getD j d) ∘ Nat.succ) = (fun j => t.getD j d) := rfl
    rw [this]
    exact rangeMapGetD d t

theorem faceEdgeIdxList_build (q : Bool) (vis eis : List Nat)
    (hlen : eis.length = if q then 4 else 3) :
    faceEdgeIdxList (FaceRecord.build q vis eis) = eis := by
  have hle4 : eis.length ≤ 4 := by
    cases q <;> simp at hlen <;> omega
  unfold faceEdgeIdxList
  have hcc : (FaceRecord.build q vis eis).cornerCount = eis.length := by
    rw [hlen]
    rfl
  rw [hcc]
  have hcong : ∀ j ∈ List.range eis.length,
      ((FaceRecord.build q vis eis).edg j).toNat = eis.getD j 0 := by
    intro j hj
    have hjl := List.mem_range.mp hj
    have hint : (FaceRecord.build q vis eis).edg j = intAt eis j :=
      match j, (by omega : j < 4) with
      | 0, _ => rfl
      | 1, _ => rfl
      | 2, _ => rfl
      | 3, _ => rfl
      | n + 4, hcon => absurd hcon (by omega)
    rw [hint, intAt, getD_map_lt _ _ _ _ 0 hjl]
    exact Int.toNat_ofNat _
  rw [List.map_congr_left hcong]
  exact rangeMapGetD 0 eis

theorem addFaceIdx_lowhigh (e : EdgeRecord) (fi : Nat) :
    (e.addFaceIdx fi).low_vertex = e.low_vertex ∧
    (e.addFaceIdx fi).high_vertex = e.high_vertex := by
  rw [EdgeRecord.addFaceIdx]
  split
  · exact ⟨rfl, rfl⟩
  · split
    · exact ⟨rfl, rfl⟩
    · exact ⟨rfl, rfl⟩

theorem addIter_lowhigh (fi : Nat) :
    ∀ (k : Nat) (e : EdgeRecord),
      (addIter fi k e).low_vertex = e.low_vertex ∧
      (addIter fi k e).high_vertex = e.high_vertex
  | 0, e => ⟨rfl, rfl⟩
  | k + 1, e => by
    rw [addIter]
    obtain ⟨h1, h2⟩ := addIter_lowhigh fi k (e.addFaceIdx fi)
    obtain ⟨g1, g2⟩ := addFaceIdx_lowhigh e fi
    exact ⟨h1.trans g1, h2.trans g2⟩

/-- The final fold of `meshToModel`'s face processing (recording the new face
index into every touched edge, saturating at two) preserves the C8
invariant, given the characterization of the state after edge resolution. -/
theorem c8_fold_step (mOld m2 mB : Model) (fr : FaceRecord) (eis : List Nat) (fi : Nat)
    (hBe : mB.edges = m2.edges)
    (hBf : mB.faces = mOld.faces ++ [fr])
    (hBp : mB.vertexPairToEdge = m2.vertexPairToEdge)
    (hfi : fi = mOld.faces.length)
    (hEcons : edgeMapConsistentL m2.vertexPairToEdge m2.edges)
    (hmono : mOld.edges.length ≤ m2.edges.length)
    (hpres : ∀ ei, ei < mOld.edges.length →
      m2.edges.getD ei default = mOld.edges.getD ei default)
    (hfresh : ∀ ei, mOld.edges.length ≤ ei → ei < m2.edges.length →
      (m2.edges.getD ei default).face_count = 0 ∧ ei ∈ eis)
    (hbound : ∀ k ∈ eis, k < m2.edges.length)
    (hfr : faceEdgeIdxList fr = eis)
    (hInv : c8Inv mOld) :
    c8Inv (eis.foldl (fun mm ei => edgeAddFace mm ei fi) mB) := by
  obtain ⟨f1, f2, f3, _⟩ := edgeFold_shape fi eis mB
  obtain ⟨hIE, hIR, hIC⟩ := hInv
  have hlen5 : (eis.foldl (fun mm ei => edgeAddFace mm ei fi) mB).edges.length =
      m2.edges.length := by
    rw [f2, hBe]
  have hgetD : ∀ ei, ei < m2.edges.length →
      (eis.foldl (fun mm ei => edgeAddFace mm ei fi) mB).edges.getD ei default =
        addIter fi (eis.count ei) (m2.edges.getD ei default) := by
    intro ei hei
    have h1 : ei < mB.edges.length := by rw [hBe]; exact hei
    rw [edgeFold_getD fi eis mB ei h1, hBe]
  refine ⟨?_, ?_, ?_⟩
  · rw [show (eis.foldl (fun mm ei => edgeAddFace mm ei fi) mB).vertexPairToEdge =
      m2.vertexPairToEdge from f3.trans hBp]
    intro pr hpr
    obtain ⟨p1, p2, p3⟩ := hEcons pr hpr
    refine ⟨by rw [hlen5]; exact p1, ?_, ?_⟩
    · rw [hgetD pr.2 p1, (addIter_lowhigh fi (eis.count pr.2) _).1]
      exact p2
    · rw [hgetD pr.2 p1, (addIter_lowhigh fi (eis.count pr.2) _).2]
      exact p3
  · intro fr2 hfr2
    rw [f1, hBf] at hfr2
    rcases List.mem_append.mp hfr2 with hold | hnew
    · intro x hx
      have hxlt := hIR fr2 hold x hx
      rw [hlen5]
      omega
    · have heq : fr2 = fr := List.mem_singleton.mp hnew
      subst heq
      intro x hx
      rw [hfr] at hx
      rw [hlen5]
      exact hbound x hx
  · intro ei hei
    have hei2 : ei < m2.edges.length := by rw [← hlen5]; exact hei
    have hSide : sideOccurrencesL
        (eis.foldl (fun mm ei => edgeAddFace mm ei fi) mB).faces ei =
        sideOccurrencesL mOld.faces ei ++
          List.replicate ((faceEdgeIdxList fr).count ei) mOld.faces.length := by
      rw [f1, hBf, sideOccL_append]
    by_cases hcase : ei < mOld.edges.length
    · obtain ⟨c1, c2, c3⟩ := hIC ei hcase
      have hm2get : m2.edges.getD ei default = mOld.edges.getD ei default :=
        hpres ei hcase
      obtain ⟨a1, a2, _, _⟩ := addIter_spec fi (eis.count ei) (m2.edges.getD ei default)
        (sideOccurrencesL mOld.faces ei) (by rw [hm2get]; exact c1)
        (by rw [hm2get]; exact c2)
      refine ⟨?_, ?_, ?_⟩
      · rw [hgetD ei hei2, a1, hSide, hfr, hfi]
      · rw [hgetD ei hei2, a2, hSide, hfr, List.length_append, List.length_replicate]
      · rw [hSide, List.length_append]
        omega
    · obtain ⟨d1, d2⟩ := hfresh ei (by omega) hei2
      have hnil : sideOccurrencesL mOld.faces ei = [] :=
        sideOccL_nil_of_big _ _ _ hIR (by omega)
      have hrec0 : (m2.edges.getD ei default).recordedFaces = [] := by
        rw [EdgeRecord.recordedFaces, if_pos d1]
      obtain ⟨a1, a2, _, _⟩ := addIter_spec fi (eis.count ei) (m2.edges.getD ei default)
        [] (by rw [hrec0]; rfl) (by rw [d1]; rfl)
      have hkpos : 0 < eis.count ei := List.count_pos_iff_mem.mpr d2
      refine ⟨?_, ?_, ?_⟩
      · rw [hgetD ei hei2, a1, hSide, hnil, hfr, hfi, List.nil_append]
      · rw [hgetD ei hei2, a2, hSide, hnil, hfr, List.nil_append,
          List.length_replicate, List.length_nil, Nat.zero_add]
      · rw [hSide, hnil, List.nil_append, List.length_replicate, hfr]
        omega

/-- Processing one face preserves the C8 invariant. -/
theorem addFaceCore_c8 (m : Model) (q : Bool) (ps : List Vec3) (h : c8Inv m) :
    c8Inv (addFaceCore m q ps) := by
  obtain ⟨sv1, sv2, sv3⟩ := resolveVerts_shape ps m
  have hE1 : edgeMapConsistentL (resolveVerts m ps).2.vertexPairToEdge
      (resolveVerts m ps).2.edges := by
    rw [sv1, sv3]
    exact h.1
  obtain ⟨r1, r2, r3, r4, r5, r6, r7⟩ := resolveEdges_c8
    ((List.range (if q then 4 else 3)).map
      (fun i => ((resolveVerts m ps).1.getD i 0,
        (resolveVerts m ps).1.getD ((i + 1) % (if q then 4 else 3)) 0)))
    (resolveVerts m ps).2 hE1
  set sides := ((List.range (if q then 4 else 3)).map
      (fun i => ((resolveVerts m ps).1.getD i 0,
        (resolveVerts m ps).1.getD ((i + 1) % (if q then 4 else 3)) 0))) with hsides
  set m2 := (resolveEdges (resolveVerts m ps).2 sides).2 with hm2
  set eis := (resolveEdges (resolveVerts m ps).2 sides).1 with heis
  set fr := FaceRecord.build q (resolveVerts m ps).1 eis with hfr2
  obtain ⟨vf1, vf2, vf3⟩ := vertFold_shape m2.faces.length (resolveVerts m ps).1
    { m2 with faces := m2.faces ++ [fr] }
  have hfaces2 : m2.faces = m.faces := r2.trans sv2
  have hlenE : eis.length = if q then 4 else 3 := by
    rw [r7, hsides, List.length_map, List.length_range]
  show c8Inv
    (eis.foldl (fun mm ei => edgeAddFace mm ei m2.faces.length)
      ((resolveVerts m ps).1.foldl
        (fun mm vi => pushVertFace mm vi m2.faces.length)
        { m2 with faces := m2.faces ++ [fr] }))
  apply c8_fold_step m m2 _ fr eis m2.faces.length
  · exact vf1
  · rw [vf2]
    show m2.faces ++ [fr] = m.faces ++ [fr]
    rw [hfaces2]
  · exact vf3
  · rw [hfaces2]
  · exact r1
  · have : m.edges.length = (resolveVerts m ps).2.edges.length := by rw [sv1]
    omega
  · intro ei hei
    have hei1 : ei < (resolveVerts m ps).2.edges.length := by rw [sv1]; exact hei
    rw [r4 ei hei1, sv1]
  · intro ei h1 h2
    have h1b : (resolveVerts m ps).2.edges.length ≤ ei := by rw [sv1]; exact h1
    exact r5 ei h1b h2
  · exact r6
  · exact faceEdgeIdxList_build q (resolveVerts m ps).1 eis hlenE
  · exact h

theorem c8Inv_empty : c8Inv emptyModel := by
  refine ⟨?_, ?_, ?_⟩
  · intro pr hpr
    cases hpr
  · intro fr hfr
    cases hfr
  · intro ei hei
    simp [emptyModel] at hei

/-- The C8 invariant holds of every model the Topology Builder produces. -/
theorem c8Inv_meshToModel (mesh : Mesh) : c8Inv (meshToModel mesh) := by
  rw [meshToModel]
  exact foldl_preserve c8Inv _ mesh.faces emptyModel c8Inv_empty
    (fun x f _ hx => addFaceCore_c8 x f.isQuad _ hx)

/-- C8: after the Topology Builder runs on any mesh, every edge record's
`face_count` is 1 or 2; its recorded faces are exactly the first two
face-side incidences in scan order (the rest are silently omitted,
`face_count` saturating at two); and every face in the incidence list —
including every omitted one — still lists the edge in its own edge array. -/
theorem c8_edge_face_saturation (mesh : Mesh) (ei : Nat)
    (h : ei < (meshToModel mesh).edges.length) :
    c8Post (meshToModel mesh) ei := by
  obtain ⟨hE, hR, hC⟩ := c8Inv_meshToModel mesh
  obtain ⟨c1, c2, c3⟩ := hC ei h
  refine ⟨?_, c1, c2, ?_⟩
  · rw [c2]
    omega
  · intro fi hfi
    exact sideOccL_mem_ref _ _ fi hfi

/-- Witness for C8 on the fan of three triangles sharing one edge: the shared
edge is edge 0. -/
theorem c8_edge_face_saturation_witness :
    0 < (meshToModel mesh3fan).edges.length ∧ c8Post (meshToModel mesh3fan) 0 :=
  ⟨by decide, c8_edge_face_saturation mesh3fan 0 (by decide)⟩

/-! ### C9 -/

/-- Consistency of the position map: every entry points at an in-range
vertex holding that position. -/
def vertexMapConsistentL (pm : List (Vec3 × Nat)) (vs : List VertexRecord) : Prop :=
  ∀ pr ∈ pm, pr.2 < vs.length ∧ (vs.getD pr.2 default).position = pr.1

theorem resolveVerts_full :
    ∀ (ps : List Vec3) (m : Model),
      vertexMapConsistentL m.positionToVertex m.vertices →
      vertexMapConsistentL (resolveVerts m ps).2.positionToVertex
        (resolveVerts m ps).2.vertices ∧
      (∃ fresh : List VertexRecord, (resolveVerts m ps).2.vertices = m.vertices ++ fresh ∧
        ∀ v ∈ fresh, v.edges = [] ∧ v.faces = []) ∧
      (resolveVerts m ps).1.length = ps.length ∧
      (∀ k, k < ps.length →
        (resolveVerts m ps).1.getD k 0 < (resolveVerts m ps).2.vertices.length ∧
        ((resolveVerts m ps).2.vertices.getD ((resolveVerts m ps).1.getD k 0)
          default).position = ps.getD k 0)
  | [], m, hV => by
    refine ⟨hV, ⟨[], by simp [resolveVerts], fun v hv => absurd hv (List.not_mem_nil v)⟩,
      rfl, ?_⟩
    intro k hk
    simp at hk
  | p :: rest, m, hV => by
    rw [resolveVerts]
    cases hlk : lookupKey m.positionToVertex p with
    | some i =>
      have heq : m.getVertexIndex p = (i, m) := by
        simp only [Model.getVertexIndex]
        rw [hlk]
      rw [heq]
      dsimp only
      obtain ⟨hi1, hi2⟩ := hV _ (lookupKey_some_mem hlk)
      obtain ⟨q1, ⟨fresh, hfr, hfre⟩, q3, q4⟩ := resolveVerts_full rest m hV
      refine ⟨q1, ⟨fresh, hfr, hfre⟩, by simp [q3], ?_⟩
      intro k hk
      match k with
      | 0 =>
        refine ⟨?_, ?_⟩
        · show i < (resolveVerts m rest).2.vertices.length
          rw [hfr, List.length_append]
          omega
        · show ((resolveVerts m rest).2.vertices.getD i default).position = p
          rw [hfr, getD_append_left _ _ _ _ hi1]
          exact hi2
      | k2 + 1 =>
        exact q4 k2 (by simpa using hk)
    | none =>
      have heq : m.getVertexIndex p =
          (m.vertices.length,
           { m with vertices := m.vertices ++ [⟨p, [], []⟩],
                    positionToVertex := (p, m.vertices.length) :: m.positionToVertex }) := by
        simp only [Model.getVertexIndex]
        rw [hlk]
      rw [heq]
      dsimp only
      set mN : Model :=
        { m with vertices := m.vertices ++ [⟨p, [], []⟩],
                 positionToVertex := (p, m.vertices.length) :: m.positionToVertex } with hmN
      have hNv : mN.vertices = m.vertices ++ [⟨p, [], []⟩] := rfl
      have hVN : vertexMapConsistentL mN.positionToVertex mN.vertices := by
        intro pr hpr
        rcases List.mem_cons.mp hpr with hpr | hpr
        · subst hpr
          refine ⟨?_, ?_⟩
          · show m.vertices.length < mN.vertices.length
            rw [hNv, List.length_append]
            simp
          · show (mN.vertices.getD m.vertices.length default).position = p
            rw [hNv, getD_append_right _ _ _ _ (Nat.le_refl _), Nat.sub_self]
            rfl
        · obtain ⟨h1, h2⟩ := hV pr hpr
          refine ⟨?_, ?_⟩
          · show pr.2 < mN.vertices.length
            rw [hNv, List.length_append]
            simp
            omega
          · show (mN.vertices.getD pr.2 default).position = pr.1
            rw [hNv, getD_append_left _ _ _ _ h1]
            exact h2
      obtain ⟨q1, ⟨fresh, hfr, hfre⟩, q3, q4⟩ := resolveVerts_full rest mN hVN
      refine ⟨q1, ⟨⟨p, [], []⟩ :: fresh, ?_, ?_⟩, by simp [q3], ?_⟩
      · rw [hfr, hNv, List.append_assoc]
        rfl
      · intro v hv
        rcases List.mem_cons.mp hv with hv | hv
        · subst hv
          exact ⟨rfl, rfl⟩
        · exact hfre v hv
      · intro k hk
        match k with
        | 0 =>
          refine ⟨?_, ?_⟩
          · show m.vertices.length < (resolveVerts mN rest).2.vertices.length
            rw [hfr, hNv, List.length_append, List.length_append, List.length_singleton]
            omega
          · show ((resolveVerts mN rest).2.vertices.getD m.vertices.length
              default).position = p
            rw [hfr, getD_append_left, hNv,
              getD_append_right _ _ _ _ (Nat.le_refl _), Nat.sub_self]
            · rfl
            · rw [hNv, List.length_append]
              simp
        | k2 + 1 =>
          exact q4 k2 (by simpa using hk)

theorem getD_eq_get_of_lt {α : Type} [Inhabited α] :
    ∀ (l : List α) (i : Nat) (h : i < l.length), l.getD i default = l.get ⟨i, h⟩
  | a :: t, 0, _ => rfl
  | a :: t, i + 1, h =>
    getD_eq_get_of_lt t i (Nat.lt_of_succ_lt_succ (by simpa using h))

theorem nodup_of_getD_inj (l : List Nat)
    (h : ∀ k1 k2, k1 < l.length → k2 < l.length → l.getD k1 0 = l.getD k2 0 → k1 = k2) :
    l.Nodup := by
  rw [List.nodup_iff_injective_get]
  intro a b hab
  have h1 : l.getD a.1 0 = l.get a := by
    have := getD_eq_get_of_lt l a.1 a.2
    simpa using this
  have h2 : l.getD b.1 0 = l.get b := by
    have := getD_eq_get_of_lt l b.1 b.2
    simpa using this
  apply Fin.ext
  exact h a.1 b.1 a.2 b.2 (by rw [h1, h2, hab])

theorem getD_inj_of_nodup {α : Type} [Inhabited α] (l : List α) (hnd : l.Nodup) :
    ∀ k1 k2, k1 < l.length → k2 < l.length →
      l.getD k1 default = l.getD k2 default → k1 = k2 := by
  intro k1 k2 h1 h2 heq
  rw [List.nodup_iff_injective_get] at hnd
  have hfin : (⟨k1, h1⟩ : Fin l.length) = ⟨k2, h2⟩ := hnd
    (by rw [← getD_eq_get_of_lt l k1 h1, ← getD_eq_get_of_lt l k2 h2, heq])
  exact congrArg Fin.val hfin

/-- With pairwise distinct corner positions, the resolved corner vertex
indices of one face are pairwise distinct. -/
theorem resolveVerts_nodup (ps : List Vec3) (m : Model)
    (hV : vertexMapConsistentL m.positionToVertex m.vertices) (hnd : ps.Nodup) :
    (resolveVerts m ps).1.Nodup := by
  obtain ⟨_, _, q3, q4⟩ := resolveVerts_full ps m hV
  apply nodup_of_getD_inj
  intro k1 k2 h1 h2 heq
  rw [q3] at h1 h2
  obtain ⟨_, p1⟩ := q4 k1 h1
  obtain ⟨_, p2⟩ := q4 k2 h2
  have hps : ps.getD k1 0 = ps.getD k2 0 := by
    rw [← p1, ← p2, heq]
  have : ps.getD k1 default = ps.getD k2 default := hps
  exact getD_inj_of_nodup ps hnd k1 k2 h1 h2 this

theorem sortPair_cases {a b c d : Int} (h : sortPair (a, b) = sortPair (c, d)) :
    (a = c ∧ b = d) ∨ (a = d ∧ b = c) := by
  rw [sortPair, sortPair] at h
  split at h <;> split at h <;>
    simp only [Prod.mk.injEq] at h <;>
    [exact Or.inl h; exact Or.inr ⟨h.1, h.2⟩; exact Or.inr ⟨h.2, h.1⟩; exact Or.inl ⟨h.2, h.1⟩]

/-- On a cyclically ordered list of 3 or 4 pairwise-distinct vertex indices,
the unordered side pairs are pairwise distinct. -/
theorem sides_sortPair_inj (vis : List Nat) (n : Nat) (hn : n = 3 ∨ n = 4)
    (hlen : vis.length = n) (hnd : vis.Nodup) :
    ∀ k1 k2, k1 < n → k2 < n →
      sortPair ((vis.getD k1 0 : Int), (vis.getD ((k1 + 1) % n) 0 : Int)) =
        sortPair ((vis.getD k2 0 : Int), (vis.getD ((k2 + 1) % n) 0 : Int)) →
      k1 = k2 := by
  intro k1 k2 h1 h2 heq
  have hinj : ∀ a b, a < n → b < n → vis.getD a 0 = vis.getD b 0 → a = b := by
    intro a b ha hb hab
    exact getD_inj_of_nodup vis hnd a b (by omega) (by omega) hab
  have hm1 : (k1 + 1) % n < n := Nat.mod_lt _ (by omega)
  have hm2 : (k2 + 1) % n < n := Nat.mod_lt _ (by omega)
  rcases sortPair_cases heq with ⟨ha, hb⟩ | ⟨ha, hb⟩
  · exact hinj k1 k2 h1 h2 (by exact_mod_cast ha)
  · have e1 : k1 = (k2 + 1) % n := hinj _ _ h1 hm2 (by exact_mod_cast ha)
    have e2 : (k1 + 1) % n = k2 := hinj _ _ hm1 h2 (by exact_mod_cast hb)
    rcases hn with hn | hn <;> subst hn <;> omega

/-- The incident-edge entries one vertex receives from a list of
(side, edge index) pairs: one entry per side end equal to the vertex. -/
def pushedOf (vi : Nat) : List ((Nat × Nat) × Nat) → List Nat
  | [] => []
  | ((s, e), ei) :: rest =>
    ((if s = vi then [ei] else []) ++ (if e = vi then [ei] else [])) ++ pushedOf vi rest

theorem resolveEdges_vertices :
    ∀ (sides : List (Nat × Nat)) (m : Model),
      (∀ p ∈ sides, p.1 < m.vertices.length ∧ p.2 < m.vertices.length) →
      (resolveEdges m sides).2.vertices.length = m.vertices.length ∧
      ∀ vi, vi < m.vertices.length →
        ((resolveEdges m sides).2.vertices.getD vi default).edges =
          (m.vertices.getD vi default).edges ++
            pushedOf vi (sides.zip (resolveEdges m sides).1) ∧
        ((resolveEdges m sides).2.vertices.getD vi default).faces =
          (m.vertices.getD vi default).faces ∧
        ((resolveEdges m sides).2.vertices.getD vi default).position =
          (m.vertices.getD vi default).position
  | [], m, _ => by
    refine ⟨rfl, fun vi _ => ⟨?_, rfl, rfl⟩⟩
    show (m.vertices.getD vi default).edges =
      (m.vertices.getD vi default).edges ++ pushedOf vi []
    simp [pushedOf]
  | (s, e) :: rest, m, hin => by
    rw [resolveEdges]
    obtain ⟨hs, he⟩ := hin (s, e) (List.mem_cons_self _ _)
    have hVsame : (m.getEdgeIndex ((s : Int), (e : Int))).2.vertices = m.vertices := by
      simp only [Model.getEdgeIndex]
      cases lookupKey m.vertexPairToEdge (sortPair ((s : Int), (e : Int))) <;> rfl
    set r := m.getEdgeIndex ((s : Int), (e : Int)) with hr
    set m2 := pushVertEdge (pushVertEdge r.2 s r.1) e r.1 with hm2
    have hm2len : m2.vertices.length = m.vertices.length := by
      show (listModify (listModify r.2.vertices s _) e _).length = m.vertices.length
      rw [listModify_length, listModify_length, hVsame]
    have hm2get : ∀ vi, vi < m.vertices.length →
        (m2.vertices.getD vi default).edges =
          (m.vertices.getD vi default).edges ++
            ((if s = vi then [r.1] else []) ++ (if e = vi then [r.1] else [])) ∧
        (m2.vertices.getD vi default).faces = (m.vertices.getD vi default).faces ∧
        (m2.vertices.getD vi default).position =
          (m.vertices.getD vi default).position := by
      intro vi hvi
      have step1 : ((pushVertEdge r.2 s r.1).vertices.getD vi default) =
          (if s = vi then
            { (m.vertices.getD vi default) with
              edges := (m.vertices.getD vi default).edges ++ [r.1] }
          else m.vertices.getD vi default) := by
        show ((listModify r.2.vertices s _).getD vi default) = _
        by_cases hsv : s = vi
        · subst hsv
          rw [if_pos rfl, getD_listModify_self _ _ _ _ (by rw [hVsame]; exact hvi),
            hVsame]
        · rw [if_neg hsv, getD_listModify_ne _ _ _ _ _ (fun hc => hsv hc.symm), hVsame]
      have step2 : (m2.vertices.getD vi default) =
          (if e = vi then
            { ((pushVertEdge r.2 s r.1).vertices.getD vi default) with
              edges := ((pushVertEdge r.2 s r.1).vertices.getD vi default).edges ++ [r.1] }
          else (pushVertEdge r.2 s r.1).vertices.getD vi default) := by
        show ((listModify (pushVertEdge r.2 s r.1).vertices e _).getD vi default) = _
        by_cases hev : e = vi
        · subst hev
          rw [if_pos rfl, getD_listModify_self _ _ _ _ ?_]
          show e < (listModify r.2.vertices s _).length
          rw [listModify_length, hVsame]
          exact he
        · rw [if_neg hev, getD_listModify_ne _ _ _ _ _ (fun hc => hev hc.symm)]
      rw [step2, step1]
      by_cases hsv : s = vi <;> by_cases hev : e = vi <;>
        simp [hsv, hev, List.append_assoc]
    have hin2 : ∀ p ∈ rest, p.1 < m2.vertices.length ∧ p.2 < m2.vertices.length := by
      intro p hp
      rw [hm2len]
      exact hin p (List.mem_cons_of_mem _ hp)
    obtain ⟨w1, w2⟩ := resolveEdges_vertices rest m2 hin2
    refine ⟨?_, ?_⟩
    · show (resolveEdges m2 rest).2.vertices.length = m.vertices.length
      rw [w1, hm2len]
    · intro vi hvi
      obtain ⟨g1, g2, g3⟩ := w2 vi (by rw [hm2len]; exact hvi)
      obtain ⟨k1, k2, k3⟩ := hm2get vi hvi
      refine ⟨?_, ?_, ?_⟩
      · show ((resolveEdges m2 rest).2.vertices.getD vi default).edges = _
        rw [g1, k1]
        show _ = (m.vertices.getD vi default).edges ++
          pushedOf vi (((s, e), r.1) :: rest.zip (resolveEdges m2 rest).1)
        rw [pushedOf, List.append_assoc]
      · show ((resolveEdges m2 rest).2.vertices.getD vi default).faces = _
        rw [g2, k2]
      · show ((resolveEdges m2 rest).2.vertices.getD vi default).position = _
        rw [g3, k3]

theorem resolveEdges_posMap :
    ∀ (sides : List (Nat × Nat)) (m : Model),
      (resolveEdges m sides).2.positionToVertex = m.positionToVertex
  | [], m => rfl
  | (s, e) :: rest, m => by
    rw [resolveEdges]
    show (resolveEdges (pushVertEdge (pushVertEdge
        (m.getEdgeIndex ((s : Int), (e : Int))).2 s
        (m.getEdgeIndex ((s : Int), (e : Int))).1) e
        (m.getEdgeIndex ((s : Int), (e : Int))).1) rest).2.positionToVertex =
      m.positionToVertex
    rw [resolveEdges_posMap rest _]
    show (m.getEdgeIndex ((s : Int), (e : Int))).2.positionToVertex =
      m.positionToVertex
    simp only [Model.getEdgeIndex]
    cases lookupKey m.vertexPairToEdge (sortPair ((s : Int), (e : Int))) <;> rfl

theorem edgeFold_posMap (fi : Nat) :
    ∀ (eis : List Nat) (m : Model),
      (eis.foldl (fun mm e2 => edgeAddFace mm e2 fi) m).positionToVertex =
        m.positionToVertex
  | [], m => rfl
  | e2 :: rest, m => by
    rw [List.foldl_cons]
    exact edgeFold_posMap fi rest (edgeAddFace m e2 fi)

/-- The effect of the `pushVertFace` fold on every vertex record: lengths,
the position map, edges and positions are untouched, and each vertex's
incident-face list gains one `fi` entry per occurrence in `vis`. -/
theorem vertFold_extra (fi : Nat) :
    ∀ (vis : List Nat) (m : Model), (∀ x ∈ vis, x < m.vertices.length) →
      (vis.foldl (fun mm vi => pushVertFace mm vi fi) m).vertices.length =
        m.vertices.length ∧
      (vis.foldl (fun mm vi => pushVertFace mm vi fi) m).positionToVertex =
        m.positionToVertex ∧
      ∀ vi, vi < m.vertices.length →
        ((vis.foldl (fun mm vi => pushVertFace mm vi fi) m).vertices.getD vi
            default).edges = (m.vertices.getD vi default).edges ∧
        ((vis.foldl (fun mm vi => pushVertFace mm vi fi) m).vertices.getD vi
            default).faces =
          (m.vertices.getD vi default).faces ++
            List.replicate (vis.count vi) fi ∧
        ((vis.foldl (fun mm vi => pushVertFace mm vi fi) m).vertices.getD vi
            default).position = (m.vertices.getD vi default).position
  | [], m, _ => ⟨rfl, rfl, fun vi _ => ⟨rfl, by simp, rfl⟩⟩
  | v0 :: rest, m, hin => by
    rw [List.foldl_cons]
    have h0 : v0 < m.vertices.length := hin v0 (List.mem_cons_self _ _)
    have hlen1 : (pushVertFace m v0 fi).vertices.length = m.vertices.length := by
      show (listModify m.vertices v0 _).length = _
      exact listModify_length _ _ _
    have hin2 : ∀ x ∈ rest, x < (pushVertFace m v0 fi).vertices.length := by
      intro x hx
      rw [hlen1]
      exact hin x (List.mem_cons_of_mem _ hx)
    obtain ⟨g1, g2, g3⟩ := vertFold_extra fi rest (pushVertFace m v0 fi) hin2
    refine ⟨g1.trans hlen1, g2, ?_⟩
    intro vi hvi
    obtain ⟨k1, k2, k3⟩ := g3 vi (by rw [hlen1]; exact hvi)
    have hstep : (pushVertFace m v0 fi).vertices.getD vi default =
        (if v0 = vi then
          { (m.vertices.getD vi default) with
            faces := (m.vertices.getD vi default).faces ++ [fi] }
        else m.vertices.getD vi default) := by
      show (listModify m.vertices v0 _).getD vi default = _
      by_cases hc : v0 = vi
      · subst hc
        rw [if_pos rfl, getD_listModify_self _ _ _ _ h0]
      · rw [if_neg hc, getD_listModify_ne _ _ _ _ _ (fun h2 => hc h2.symm)]
    by_cases hc : v0 = vi
    · rw [if_pos hc] at hstep
      subst hc
      refine ⟨?_, ?_, ?_⟩
      · rw [k1, hstep]
      · rw [k2, hstep]
        simp [List.count_cons_self, List.replicate_succ]
      · rw [k3, hstep]
    · rw [if_neg hc] at hstep
      refine ⟨?_, ?_, ?_⟩
      · rw [k1, hstep]
      · rw [k2, hstep, List.count_cons_of_ne (fun h2 => hc h2.symm)]
      · rw [k3, hstep]

theorem mem_getD_idx {α : Type} [Inhabited α] :
    ∀ (l : List α) (a : α), a ∈ l →
      ∃ k, k < l.length ∧ l.getD k default = a
  | b :: t, a, h => by
    rcases List.mem_cons.mp h with h | h
    · exact ⟨0, by simp, h.symm⟩
    · obtain ⟨k, hk, he⟩ := mem_getD_idx t a h
      exact ⟨k + 1, by simpa using hk, he⟩

theorem mem_zip_idx {α β : Type} [Inhabited α] [Inhabited β] :
    ∀ (l1 : List α) (l2 : List β) (pr : α × β), pr ∈ l1.zip l2 →
      ∃ k, k < l1.length ∧ k < l2.length ∧
        l1.getD k default = pr.1 ∧ l2.getD k default = pr.2
  | [], _, pr, h => absurd h (by simp)
  | _ :: _, [], pr, h => absurd h (by simp)
  | a :: t1, b :: t2, pr, h => by
    rcases List.mem_cons.mp h with h | h
    · exact ⟨0, by simp, by simp, congrArg Prod.fst h.symm,
        congrArg Prod.snd h.symm⟩
    · obtain ⟨k, hk1, hk2, he1, he2⟩ := mem_zip_idx t1 t2 pr h
      exact ⟨k + 1, by simpa using hk1, by simpa using hk2, he1, he2⟩

theorem zip_proj :
    ∀ (sides : List (Nat × Nat)) (eis : List Nat), sides.length = eis.length →
      (sides.zip eis).map (fun pr => pr.1.1) = sides.map (fun p => p.1) ∧
      (sides.zip eis).map (fun pr => pr.1.2) = sides.map (fun p => p.2) ∧
      (sides.zip eis).map (fun pr => pr.2) = eis
  | [], [], _ => ⟨rfl, rfl, rfl⟩
  | [], e :: t2, h => by simp at h
  | s :: t1, [], h => by simp at h
  | s :: t1, e :: t2, h => by
    obtain ⟨g1, g2, g3⟩ := zip_proj t1 t2 (by simpa using h)
    refine ⟨?_, ?_, ?_⟩
    · rw [List.zip_cons_cons, List.map_cons, List.map_cons, g1]
    · rw [List.zip_cons_cons, List.map_cons, List.map_cons, g2]
    · rw [List.zip_cons_cons, List.map_cons, g3]

theorem sortPair_eq_or (a b : Int) :
    sortPair (a, b) = (a, b) ∨ sortPair (a, b) = (b, a) := by
  rw [sortPair]
  split
  · exact Or.inl rfl
  · exact Or.inr rfl

/-- `Model::getEdgeIndex` keeps the edge map consistent, returns an in-range
index whose record's endpoints are the sorted query pair, and preserves all
existing edge records. -/
theorem getEdgeIndex_spec (m : Model) (p : Int × Int)
    (hE : edgeMapConsistentL m.vertexPairToEdge m.edges) :
    edgeMapConsistentL (m.getEdgeIndex p).2.vertexPairToEdge
      (m.getEdgeIndex p).2.edges ∧
    (m.getEdgeIndex p).1 < (m.getEdgeIndex p).2.edges.length ∧
    ((m.getEdgeIndex p).2.edges.getD (m.getEdgeIndex p).1 default).low_vertex =
      (sortPair p).1 ∧
    ((m.getEdgeIndex p).2.edges.getD (m.getEdgeIndex p).1 default).high_vertex =
      (sortPair p).2 ∧
    m.edges.length ≤ (m.getEdgeIndex p).2.edges.length ∧
    (∀ ei, ei < m.edges.length →
      (m.getEdgeIndex p).2.edges.getD ei default = m.edges.getD ei default) := by
  cases hlk : lookupKey m.vertexPairToEdge (sortPair p) with
  | some i =>
    rw [getEdgeIndex_found hlk]
    obtain ⟨h1, h2, h3⟩ := hE _ (lookupKey_some_mem hlk)
    exact ⟨hE, h1, h2, h3, Nat.le_refl _, fun ei _ => rfl⟩
  | none =>
    rw [getEdgeIndex_fresh hlk]
    refine ⟨?_, ?_, ?_, ?_, ?_, ?_⟩
    · intro pr hpr
      rcases List.mem_cons.mp hpr with hpr | hpr
    
      · subst hpr
        refine ⟨?_, ?_, ?_⟩
        · show m.edges.length < (m.edges ++ [_]).length
          rw [List.length_append, List.length_singleton]
          omega
        · show ((m.edges ++ [(⟨(sortPair p).1, (sortPair p).2, 0, -1, -1⟩ :
              EdgeRecord)]).getD m.edges.length default).low_vertex = (sortPair p).1
          rw [getD_append_right _ _ _ _ (Nat.le_refl _), Nat.sub_self]
          rfl
        · show ((m.edges ++ [(⟨(sortPair p).1, (sortPair p).2, 0, -1, -1⟩ :
              EdgeRecord)]).getD m.edges.length default).high_vertex = (sortPair p).2
          rw [getD_append_right _ _ _ _ (Nat.le_refl _), Nat.sub_self]
          rfl
      · obtain ⟨h1, h2, h3⟩ := hE pr hpr
        refine ⟨?_, ?_, ?_⟩
        · show pr.2 < (m.edges ++ [_]).length
          rw [List.length_append, List.length_singleton]
          omega
        · show ((m.edges ++ [_]).getD pr.2 default).low_vertex = pr.1.1
          rw [getD_append_left _ _ _ _ h1]
          exact h2
        · show ((m.edges ++ [_]).getD pr.2 default).high_vertex = pr.1.2
          rw [getD_append_left _ _ _ _ h1]
          exact h3
    · show m.edges.length < (m.edges ++ [_]).length
      rw [List.length_append, List.length_singleton]
      omega
    · show ((m.edges ++ [(⟨(sortPair p).1, (sortPair p).2, 0, -1, -1⟩ :
          EdgeRecord)]).getD m.edges.length default).low_vertex = (sortPair p).1
      rw [getD_append_right _ _ _ _ (Nat.le_refl _), Nat.sub_self]
      rfl
    · show ((m.edges ++ [(⟨(sortPair p).1, (sortPair p).2, 0, -1, -1⟩ :
          EdgeRecord)]).getD m.edges.length default).high_vertex = (sortPair p).2
      rw [getD_append_right _ _ _ _ (Nat.le_refl _), Nat.sub_self]
      rfl
    · show m.edges.length ≤ (m.edges ++ [_]).length
      rw [List.length_append]
      omega
    · intro ei hei
      show (m.edges ++ [_]).getD ei default = m.edges.getD ei default
      rw [getD_append_left _ _ _ _ hei]

/-- Each resolved edge index of a face side points at a record whose
endpoints are the sorted side pair. -/
theorem resolveEdges_endpoints :
    ∀ (sides : List (Nat × Nat)) (m : Model),
      edgeMapConsistentL m.vertexPairToEdge m.edges →
      ∀ k, k < sides.length →
        (resolveEdges m sides).1.getD k 0 <
          (resolveEdges m sides).2.edges.length ∧
        ((resolveEdges m sides).2.edges.getD
            ((resolveEdges m sides).1.getD k 0) default).low_vertex =
          (sortPair (((sides.getD k default).1 : Int),
            ((sides.getD k default).2 : Int))).1 ∧
        ((resolveEdges m sides).2.edges.getD
            ((resolveEdges m sides).1.getD k 0) default).high_vertex =
          (sortPair (((sides.getD k default).1 : Int),
            ((sides.getD k default).2 : Int))).2
  | [], m, _, k, hk => absurd hk (by simp)
  | (s, e) :: rest, m, hE, k, hk => by
    obtain ⟨gE, gLt, gLow, gHigh, gMono, gPres⟩ :=
      getEdgeIndex_spec m ((s : Int), (e : Int)) hE
    set r := m.getEdgeIndex ((s : Int), (e : Int)) with hr
    set m2 := pushVertEdge (pushVertEdge r.2 s r.1) e r.1 with hm2
    have hm2e : m2.edges = r.2.edges := rfl
    have hE2 : edgeMapConsistentL m2.vertexPairToEdge m2.edges := gE
    obtain ⟨_, _, p3, p4, _, _, _⟩ := resolveEdges_c8 rest m2 hE2
    have hred : resolveEdges m ((s, e) :: rest) =
        (r.1 :: (resolveEdges m2 rest).1, (resolveEdges m2 rest).2) := by
      rw [resolveEdges]
    rw [hred]
    match k, hk with
    | 0, _ =>
      have hlt2 : r.1 < m2.edges.length := by rw [hm2e]; exact gLt
      have hpr : (resolveEdges m2 rest).2.edges.getD r.1 default =
          m2.edges.getD r.1 default := p4 r.1 hlt2
      refine ⟨?_, ?_, ?_⟩
      · show r.1 < (resolveEdges m2 rest).2.edges.length
        omega
      · show ((resolveEdges m2 rest).2.edges.getD r.1 default).low_vertex =
          (sortPair ((s : Int), (e : Int))).1
        rw [hpr, hm2e]
        exact gLow
      · show ((resolveEdges m2 rest).2.edges.getD r.1 default).high_vertex =
          (sortPair ((s : Int), (e : Int))).2
        rw [hpr, hm2e]
        exact gHigh
    | k2 + 1, hk =>
      exact resolveEdges_endpoints rest m2 hE2 k2 (by simpa using hk)

theorem pushedOf_length (vi : Nat) :
    ∀ (zl : List ((Nat × Nat) × Nat)),
      (pushedOf vi zl).length =
        (zl.map (fun pr => pr.1.1)).count vi +
          (zl.map (fun pr => pr.1.2)).count vi
  | [] => rfl
  | ((s, e), ei) :: rest => by
    by_cases hs : s = vi <;> by_cases he : e = vi <;>
      simp [pushedOf, pushedOf_length vi rest, hs, he, List.count_cons] <;>
      omega

/-- Count of one edge index in a vertex's pushed entries: when the vertex is
one of the edge's two (distinct) endpoints, one entry per side resolving to
that edge; otherwise none. -/
theorem pushedOf_count (vi ej : Nat) (low high : Int) :
    ∀ (zl : List ((Nat × Nat) × Nat)),
      (∀ pr ∈ zl, pr.2 = ej →
        (((pr.1.1 : Int) = low ∧ ((pr.1.2 : Nat) : Int) = high) ∨
         ((pr.1.1 : Int) = high ∧ ((pr.1.2 : Nat) : Int) = low)) ∧
        low ≠ high) →
      (pushedOf vi zl).count ej =
        (if (vi : Int) = low ∨ (vi : Int) = high
         then (zl.map (fun pr => pr.2)).count ej else 0)
  | [], _ => by
    rw [pushedOf]
    simp
  | ((s, e), ei) :: rest, hyp => by
    have htail := pushedOf_count vi ej low high rest
      (fun pr hpr hej => hyp pr (List.mem_cons_of_mem _ hpr) hej)
    rw [pushedOf, List.count_append, List.count_append, htail, List.map_cons]
    by_cases hei : ei = ej
    · obtain ⟨hmatch, hlh⟩ := hyp ((s, e), ei) (List.mem_cons_self _ _) hei
      dsimp only at hmatch
      subst hei
      by_cases hs : s = vi <;> by_cases he : e = vi <;>
        by_cases hcond : (vi : Int) = low ∨ (vi : Int) = high <;>
        simp [hs, he, hcond, List.count_cons] <;> omega
    · by_cases hs : s = vi <;> by_cases he : e = vi <;>
        by_cases hcond : (vi : Int) = low ∨ (vi : Int) = high <;>
        simp [hs, he, hei, hcond, List.count_cons] <;> omega

theorem rotateGetD (l : List Nat) :
    (List.range l.length).map (fun i => l.getD ((i + 1) % l.length) 0) =
      l.rotate 1 := by
  apply List.ext_get
  · rw [List.length_map, List.length_range, List.length_rotate]
  · intro k h1 h2
    have hk : k < l.length := by
      rw [List.length_map, List.length_range] at h1
      exact h1
    have hmod : (k + 1) % l.length < l.length := Nat.mod_lt _ (by omega)
    rw [List.get_map, List.get_rotate]
    simp only [List.get_range]
    exact getD_eq_get_of_lt l ((k + 1) % l.length) hmod

/-- The cyclic-successor reading of a list is a rotation: counts agree. -/
theorem count_cyclic (l : List Nat) (vi : Nat) :
    ((List.range l.length).map
      (fun i => l.getD ((i + 1) % l.length) 0)).count vi = l.count vi := by
  rw [rotateGetD]
  exact (List.rotate_perm l 1).count_eq vi

theorem getD_oob {α : Type} :
    ∀ (l : List α) (i : Nat) (d : α), l.length ≤ i → l.getD i d = d
  | [], _, _, _ => by simp
  | a :: t, 0, d, h => by simp at h
  | a :: t, i + 1, d, h => getD_oob t i d (by simpa using h)

theorem pushedOf_subset (vi : Nat) :
    ∀ (zl : List ((Nat × Nat) × Nat)), ∀ x ∈ pushedOf vi zl,
      ∃ pr ∈ zl, pr.2 = x
  | ((s, e), ei) :: rest, x, hx => by
    rw [pushedOf] at hx
    rcases List.mem_append.mp hx with hx | hx
    · rcases List.mem_append.mp hx with hx | hx
      · by_cases hs : s = vi
        · rw [if_pos hs] at hx
          exact ⟨((s, e), ei), List.mem_cons_self _ _,
            (List.mem_singleton.mp hx).symm⟩
        · rw [if_neg hs] at hx
          exact absurd hx (List.not_mem_nil x)
      · by_cases he : e = vi
        · rw [if_pos he] at hx
          exact ⟨((s, e), ei), List.mem_cons_self _ _,
            (List.mem_singleton.mp hx).symm⟩
        · rw [if_neg he] at hx
          exact absurd hx (List.not_mem_nil x)
    · obtain ⟨pr, hpr, hpe⟩ := pushedOf_subset vi rest x hx
      exact ⟨pr, List.mem_cons_of_mem _ hpr, hpe⟩
  | [], x, hx => absurd hx (List.not_mem_nil x)

/-- The C9 induction invariant of the Topology Builder: the position map is
consistent, every edge's endpoints are in-range vertex indices, every
vertex's incident-edge list is exactly twice as long as its incident-face
list, and it holds each edge index once per recorded face-side incidence on
that edge having the vertex as an endpoint. -/
def c9Parts (m : Model) : Prop :=
  vertexMapConsistentL m.positionToVertex m.vertices ∧
  (∀ ei, ei < m.edges.length →
    ∃ a b : Nat, a < m.vertices.length ∧ b < m.vertices.length ∧
      (m.edges.getD ei default).low_vertex = (a : Int) ∧
      (m.edges.getD ei default).high_vertex = (b : Int)) ∧
  (∀ vi, vi < m.vertices.length →
    (m.vertices.getD vi default).edges.length =
      2 * (m.vertices.getD vi default).faces.length) ∧
  (∀ vi, vi < m.vertices.length → ∀ ei,
    (m.vertices.getD vi default).edges.count ei =
      (if (vi : Int) = (m.edges.getD ei default).low_vertex ∨
          (vi : Int) = (m.edges.getD ei default).high_vertex
       then (sideOccurrencesL m.faces ei).length else 0))

/-- Processing one face with pairwise-distinct corner positions preserves
the C9 invariant. -/
theorem addFaceCore_c9 (m : Model) (q : Bool) (ps : List Vec3)
    (hps : ps.length = (if q then 4 else 3)) (hnd : ps.Nodup)
    (hc8 : c8Inv m) (h : c9Parts m) :
    c9Parts (addFaceCore m q ps) := by
  obtain ⟨hVmap, hRange, hDbl, hCnt⟩ := h
  obtain ⟨sv1, sv2, sv3⟩ := resolveVerts_shape ps m
  obtain ⟨q1, ⟨fresh, hfr, hfre⟩, q3, q4⟩ := resolveVerts_full ps m hVmap
  set vis := (resolveVerts m ps).1 with hvis
  set mV := (resolveVerts m ps).2 with hmV
  have hvisLen : vis.length = (if q then 4 else 3) := q3.trans hps
  have hvisNodup : vis.Nodup := resolveVerts_nodup ps m hVmap hnd
  have hVlen : m.vertices.length ≤ mV.vertices.length := by
    rw [hfr, List.length_append]
    omega
  have hvisGetLt : ∀ k, k < (if q then 4 else 3) →
      vis.getD k 0 < mV.vertices.length := by
    intro k hk
    exact (q4 k (by omega)).1
  set sides := (List.range (if q then 4 else 3)).map
    (fun i => (vis.getD i 0, vis.getD ((i + 1) % (if q then 4 else 3)) 0))
    with hsides
  have hsidesLen : sides.length = (if q then 4 else 3) := by
    rw [hsides, List.length_map, List.length_range]
  have hn34 : (if q then 4 else 3) = 3 ∨ (if q then 4 else 3) = 4 := by
    cases q <;> simp
  have hmodLt : ∀ k : Nat, (k + 1) % (if q then 4 else 3) < (if q then 4 else 3) :=
    fun k => Nat.mod_lt _ (by cases q <;> decide)
  have hsideVal : ∀ k, k < (if q then 4 else 3) →
      sides.getD k default =
        (vis.getD k 0, vis.getD ((k + 1) % (if q then 4 else 3)) 0) := by
    intro k hk
    have hkr : k < (List.range (if q then 4 else 3)).length := by
      rw [List.length_range]
      exact hk
    rw [hsides, getD_map_lt _ _ _ _ 0 hkr]
    have hrg : (List.range (if q then 4 else 3)).getD k 0 = k := by
      have h2 : (List.range (if q then 4 else 3)).getD k 0 =
          (List.range (if q then 4 else 3)).get ⟨k, hkr⟩ :=
        getD_eq_get_of_lt _ _ hkr
      rw [h2]
      exact List.get_range _ _
    rw [hrg]
  have hsideNe : ∀ k, k < (if q then 4 else 3) →
      vis.getD k 0 ≠ vis.getD ((k + 1) % (if q then 4 else 3)) 0 := by
    intro k hk hcon
    have hcon2 : vis.getD k default =
        vis.getD ((k + 1) % (if q then 4 else 3)) default := hcon
    have hkk := getD_inj_of_nodup vis hvisNodup k
      ((k + 1) % (if q then 4 else 3)) (by omega) (by rw [hvisLen]; exact hmodLt k)
      hcon2
    rcases hn34 with hnv | hnv <;> rw [hnv] at hkk hk <;> omega
  have hsidesLt : ∀ p ∈ sides, p.1 < mV.vertices.length ∧
      p.2 < mV.vertices.length := by
    intro p hp
    rw [hsides] at hp
    obtain ⟨i, hi, hpe⟩ := List.mem_map.mp hp
    have hiLt := List.mem_range.mp hi
    rw [← hpe]
    exact ⟨hvisGetLt i hiLt, hvisGetLt _ (hmodLt i)⟩
  have hEconsV : edgeMapConsistentL mV.vertexPairToEdge mV.edges := by
    rw [sv1, sv3]
    exact hc8.1
  obtain ⟨r1, r2, r3, r4, r5, r6, r7⟩ := resolveEdges_c8 sides mV hEconsV
  set eis := (resolveEdges mV sides).1 with heis
  set mE := (resolveEdges mV sides).2 with hmE
  obtain ⟨w1, w2⟩ := resolveEdges_vertices sides mV hsidesLt
  have hEnds := resolveEdges_endpoints sides mV hEconsV
  have hposE : mE.positionToVertex = mV.positionToVertex :=
    resolveEdges_posMap sides mV
  have heisLen : eis.length = (if q then 4 else 3) := r7.trans hsidesLen
  have hEdgeLenV : mV.edges.length = m.edges.length := by rw [sv1]
  have hfacesE : mE.faces = m.faces := r2.trans sv2
  set fr := FaceRecord.build q vis eis with hfr2
  have hfrEis : faceEdgeIdxList fr = eis := faceEdgeIdxList_build q vis eis heisLen
  set fi := mE.faces.length with hfi
  set m3 : Model := { mE with faces := mE.faces ++ [fr] } with hm3
  have hm3v : m3.vertices = mE.vertices := rfl
  have hvisMemLt : ∀ x ∈ vis, x < m3.vertices.length := by
    intro x hx
    obtain ⟨k, hk, hkx⟩ := mem_getD_idx vis x hx
    rw [hm3v, w1, ← hkx]
    exact hvisGetLt k (by rw [← hvisLen]; exact hk)
  obtain ⟨vf1, vf2, vf3⟩ := vertFold_extra fi vis m3 hvisMemLt
  obtain ⟨vs1, vs2, vs3⟩ := vertFold_shape fi vis m3
  set m4 := vis.foldl (fun mm vi => pushVertFace mm vi fi) m3 with hm4
  obtain ⟨f1, f2, f3, f4⟩ := edgeFold_shape fi eis m4
  have hposFold := edgeFold_posMap fi eis m4
  set mF := eis.foldl (fun mm ei => edgeAddFace mm ei fi) m4 with hmF
  have hFvLen : mF.vertices.length = mV.vertices.length := by
    rw [f4, vf1, hm3v, w1]
  have hFeLen : mF.edges.length = mE.edges.length := by
    rw [f2, vs1]
  have hFe : ∀ ei, ei < mE.edges.length →
      mF.edges.getD ei default =
        addIter fi (eis.count ei) (mE.edges.getD ei default) := by
    intro ei hei
    have hlt : ei < m4.edges.length := by rw [vs1]; exact hei
    rw [edgeFold_getD fi eis m4 ei hlt, vs1]
  have hFfaces : mF.faces = m.faces ++ [fr] := by
    rw [f1, vs2]
    show mE.faces ++ [fr] = m.faces ++ [fr]
    rw [hfacesE]
  have hSideF : ∀ ei, sideOccurrencesL mF.faces ei =
      sideOccurrencesL m.faces ei ++
        List.replicate (eis.count ei) m.faces.length := by
    intro ei
    rw [hFfaces, sideOccL_append, hfrEis]
  have hposF : mF.positionToVertex = mV.positionToVertex := by
    rw [hposFold, vf2]
    exact hposE
  have hVrec : ∀ vi, vi < mV.vertices.length →
      (mF.vertices.getD vi default).edges =
        (mV.vertices.getD vi default).edges ++ pushedOf vi (sides.zip eis) ∧
      (mF.vertices.getD vi default).faces =
        (mV.vertices.getD vi default).faces ++
          List.replicate (vis.count vi) fi ∧
      (mF.vertices.getD vi default).position =
        (mV.vertices.getD vi default).position := by
    intro vi hvi
    obtain ⟨e1, e2, e3⟩ := w2 vi hvi
    have hvi3 : vi < m3.vertices.length := by rw [hm3v, w1]; exact hvi
    obtain ⟨k1, k2, k3⟩ := vf3 vi hvi3
    refine ⟨?_, ?_, ?_⟩
    · rw [f4, k1]
      exact e1
    · rw [f4, k2, hm3v, e2]
    · rw [f4, k3]
      exact e3
  have hVfreshRec : ∀ vi, m.vertices.length ≤ vi →
      (mV.vertices.getD vi default).edges = [] ∧
      (mV.vertices.getD vi default).faces = [] := by
    intro vi hvi
    by_cases hlt : vi < mV.vertices.length
    · have hlt2 : vi - m.vertices.length < fresh.length := by
        rw [hfr, List.length_append] at hlt
        omega
      have hrecV : mV.vertices.getD vi default =
          fresh.getD (vi - m.vertices.length) default := by
        rw [hfr, getD_append_right _ _ _ _ (by omega)]
      rw [hrecV]
      exact hfre _ (getD_mem _ _ _ hlt2)
    · rw [getD_oob _ _ _ (by omega)]
      exact ⟨rfl, rfl⟩
  have hPushLen : (pushedOf 0 (sides.zip eis)).length = 0 ∨ True := Or.inr trivial
  have hzip3 := zip_proj sides eis r7.symm
  have hPushedLen : ∀ vi, (pushedOf vi (sides.zip eis)).length =
      2 * vis.count vi := by
    intro vi
    obtain ⟨z1, z2, _⟩ := hzip3
    rw [pushedOf_length, z1, z2, hsides, List.map_map, List.map_map]
    have hfst : ((fun p : Nat × Nat => p.1) ∘
        (fun i => (vis.getD i 0, vis.getD ((i + 1) % (if q then 4 else 3)) 0))) =
        (fun i => vis.getD i 0) := rfl
    have hsnd : ((fun p : Nat × Nat => p.2) ∘
        (fun i => (vis.getD i 0, vis.getD ((i + 1) % (if q then 4 else 3)) 0))) =
        (fun i => vis.getD ((i + 1) % (if q then 4 else 3)) 0) := rfl
    rw [hfst, hsnd, ← hvisLen, rangeMapGetD 0 vis, count_cyclic vis vi]
    omega
  have hPushHyp : ∀ ei, ei < mE.edges.length →
      ∀ pr ∈ sides.zip eis, pr.2 = ei →
        (((pr.1.1 : Int) = (mE.edges.getD ei default).low_vertex ∧
          ((pr.1.2 : Nat) : Int) = (mE.edges.getD ei default).high_vertex) ∨
         ((pr.1.1 : Int) = (mE.edges.getD ei default).high_vertex ∧
          ((pr.1.2 : Nat) : Int) = (mE.edges.getD ei default).low_vertex)) ∧
        (mE.edges.getD ei default).low_vertex ≠
          (mE.edges.getD ei default).high_vertex := by
    intro ei hei pr hpr hpe
    obtain ⟨k, hkS, hkE, hps1, hps2⟩ := mem_zip_idx sides eis pr hpr
    obtain ⟨_, hLow, hHigh⟩ := hEnds k hkS
    have hkei : eis.getD k 0 = ei := by
      have : eis.getD k default = ei := hps2.trans hpe
      exact this
    rw [hkei] at hLow hHigh
    have hkn : k < (if q then 4 else 3) := by rw [← hsidesLen]; exact hkS
    rw [hsideVal k hkn] at hLow hHigh
    dsimp only at hLow hHigh
    have hpr1 : pr.1 = (vis.getD k 0,
        vis.getD ((k + 1) % (if q then 4 else 3)) 0) := by
      rw [← hps1, hsideVal k hkn]
    have hne := hsideNe k hkn
    rcases sortPair_eq_or ((vis.getD k 0 : Int))
        ((vis.getD ((k + 1) % (if q then 4 else 3)) 0 : Int)) with hsp | hsp <;>
      rw [hsp] at hLow hHigh <;> dsimp only at hLow hHigh
    · refine ⟨Or.inl ⟨?_, ?_⟩, ?_⟩
      · rw [hLow, hpr1]
      · rw [hHigh, hpr1]
      · rw [hLow, hHigh]
        intro hcon
        exact hne (by exact_mod_cast hcon)
    · refine ⟨Or.inr ⟨?_, ?_⟩, ?_⟩
      · rw [hHigh, hpr1]
      · rw [hLow, hpr1]
      · rw [hLow, hHigh]
        intro hcon
        have hcon2 : vis.getD ((k + 1) % (if q then 4 else 3)) 0 =
            vis.getD k 0 := by exact_mod_cast hcon
        exact hne hcon2.symm
  show c9Parts mF
  refine ⟨?_, ?_, ?_, ?_⟩
  · intro pr hpr
    rw [hposF] at hpr
    obtain ⟨p1, p2⟩ := q1 pr hpr
    refine ⟨by rw [hFvLen]; exact p1, ?_⟩
    obtain ⟨_, _, e3⟩ := hVrec pr.2 p1
    rw [e3]
    exact p2
  · intro ei hei
    have heiE : ei < mE.edges.length := by rw [← hFeLen]; exact hei
    have hrec := hFe ei heiE
    obtain ⟨hl, hh⟩ := addIter_lowhigh fi (eis.count ei) (mE.edges.getD ei default)
    by_cases hcase : ei < m.edges.length
    · obtain ⟨a, b, ha, hb, hla, hhb⟩ := hRange ei hcase
      have hsame : mE.edges.getD ei default = m.edges.getD ei default := by
        rw [r4 ei (by omega), sv1]
      refine ⟨a, b, by rw [hFvLen]; omega, by rw [hFvLen]; omega, ?_, ?_⟩
      · rw [hrec, hl, hsame]
        exact hla
      · rw [hrec, hh, hsame]
        exact hhb
    · obtain ⟨_, hmem⟩ := r5 ei (by omega) heiE
      obtain ⟨k, hk, hkei⟩ := mem_getD_idx eis ei hmem
      have hkS : k < sides.length := by
        rw [hsidesLen, ← heisLen]
        exact hk
      obtain ⟨_, hLow, hHigh⟩ := hEnds k hkS
      have hkei2 : eis.getD k 0 = ei := hkei
      rw [hkei2] at hLow hHigh
      have hkn : k < (if q then 4 else 3) := by rw [← hsidesLen]; exact hkS
      rw [hsideVal k hkn] at hLow hHigh
      dsimp only at hLow hHigh
      rcases sortPair_eq_or ((vis.getD k 0 : Int))
          ((vis.getD ((k + 1) % (if q then 4 else 3)) 0 : Int)) with hsp | hsp <;>
        rw [hsp] at hLow hHigh <;> dsimp only at hLow hHigh
      · refine ⟨vis.getD k 0, vis.getD ((k + 1) % (if q then 4 else 3)) 0,
          by rw [hFvLen]; exact hvisGetLt k hkn,
          by rw [hFvLen]; exact hvisGetLt _ (hmodLt k), ?_, ?_⟩
        · rw [hrec, hl]
          exact hLow
        · rw [hrec, hh]
          exact hHigh
      · refine ⟨vis.getD ((k + 1) % (if q then 4 else 3)) 0, vis.getD k 0,
          by rw [hFvLen]; exact hvisGetLt _ (hmodLt k),
          by rw [hFvLen]; exact hvisGetLt k hkn, ?_, ?_⟩
        · rw [hrec, hl]
          exact hLow
        · rw [hrec, hh]
          exact hHigh
  · intro vi hvi
    have hviV : vi < mV.vertices.length := by rw [hFvLen] at hvi; exact hvi
    obtain ⟨e1, e2, _⟩ := hVrec vi hviV
    rw [e1, e2, List.length_append, List.length_append,
      List.length_replicate, hPushedLen vi]
    by_cases hcase : vi < m.vertices.length
    · have hOld : mV.vertices.getD vi default = m.vertices.getD vi default := by
        rw [hfr, getD_append_left _ _ _ _ hcase]
      rw [hOld]
      have := hDbl vi hcase
      omega
    · obtain ⟨hfe, hff⟩ := hVfreshRec vi (by omega)
      rw [hfe, hff]
      simp
  · intro vi hvi ei
    have hviV : vi < mV.vertices.length := by rw [hFvLen] at hvi; exact hvi
    obtain ⟨e1, _, _⟩ := hVrec vi hviV
    rw [e1, List.count_append]
    have hOldCountBig : m.edges.length ≤ ei →
        ((mV.vertices.getD vi default).edges.count ei) = 0 := by
      intro hbig
      by_cases hvold : vi < m.vertices.length
      · rw [hfr, getD_append_left _ _ _ _ hvold, hCnt vi hvold ei,
          getD_oob _ _ _ hbig]
        have hcondF : ¬((vi : Int) = (default : EdgeRecord).low_vertex ∨
            (vi : Int) = (default : EdgeRecord).high_vertex) := by
          have h1 : (default : EdgeRecord).low_vertex = -1 := rfl
          have h2 : (default : EdgeRecord).high_vertex = -1 := rfl
          rw [h1, h2]
          omega
        rw [if_neg hcondF]
      · obtain ⟨hfe, _⟩ := hVfreshRec vi (by omega)
        rw [hfe, List.count_nil]
    by_cases hcase2 : ei < mE.edges.length
    · have hrec := hFe ei hcase2
      obtain ⟨hl, hh⟩ := addIter_lowhigh fi (eis.count ei) (mE.edges.getD ei default)
      have hpc := pushedOf_count vi ei (mE.edges.getD ei default).low_vertex
        (mE.edges.getD ei default).high_vertex (sides.zip eis)
        (hPushHyp ei hcase2)
      obtain ⟨_, _, z3⟩ := hzip3
      rw [z3] at hpc
      rw [hrec, hl, hh, hSideF ei, List.length_append, List.length_replicate, hpc]
      by_cases hcase : ei < m.edges.length
      · have hsame : mE.edges.getD ei default = m.edges.getD ei default := by
          rw [r4 ei (by omega), sv1]
        rw [hsame]
        by_cases hvold : vi < m.vertices.length
        · have hOld : mV.vertices.getD vi default = m.vertices.getD vi default := by
            rw [hfr, getD_append_left _ _ _ _ hvold]
          rw [hOld, hCnt vi hvold ei]
          by_cases hcond : (vi : Int) = (m.edges.getD ei default).low_vertex ∨
              (vi : Int) = (m.edges.getD ei default).high_vertex
          · rw [if_pos hcond, if_pos hcond, if_pos hcond]
          · rw [if_neg hcond, if_neg hcond, if_neg hcond]
        · obtain ⟨hfe, _⟩ := hVfreshRec vi (by omega)
          rw [hfe, List.count_nil]
          have hcondF : ¬((vi : Int) = (m.edges.getD ei default).low_vertex ∨
              (vi : Int) = (m.edges.getD ei default).high_vertex) := by
            obtain ⟨a, b, ha, hb, hla, hhb⟩ := hRange ei hcase
            rw [hla, hhb]
            intro hcon
            rcases hcon with hcon | hcon
            · have : vi = a := by exact_mod_cast hcon
              omega
            · have : vi = b := by exact_mod_cast hcon
              omega
          rw [if_neg hcondF, if_neg hcondF]
      · have hnil : sideOccurrencesL m.faces ei = [] :=
          sideOccL_nil_of_big _ _ m.edges.length hc8.2.1 (by omega)
        rw [hOldCountBig (by omega), hnil, List.length_nil, Nat.zero_add,
          Nat.zero_add]
    · have hoobF : mF.edges.getD ei default = default :=
        getD_oob _ _ _ (by rw [hFeLen]; omega)
      rw [hoobF]
      have h1 : (default : EdgeRecord).low_vertex = -1 := rfl
      have h2 : (default : EdgeRecord).high_vertex = -1 := rfl
      rw [h1, h2]
      have hcondF : ¬((vi : Int) = -1 ∨ (vi : Int) = -1) := by omega
      rw [if_neg hcondF]
      have hzero2 : (pushedOf vi (sides.zip eis)).count ei = 0 := by
        rw [List.count_eq_zero]
        intro hmem
        obtain ⟨pr, hpr, hpe⟩ := pushedOf_subset vi _ ei hmem
        obtain ⟨k, hk1, hk2, _, hps2⟩ := mem_zip_idx sides eis pr hpr
        have hmemE : pr.2 ∈ eis := by
          rw [← hps2]
          exact getD_mem _ _ _ hk2
        have := r6 _ hmemE
        omega
      have hbig2 : m.edges.length ≤ ei := by
        have := r3
        omega
      rw [hzero2, hOldCountBig hbig2]

/-- The repositioning formula with the incident-edge average written as an
explicitly multiplicity-weighted sum over the distinct incident edges: each
distinct edge's midpoint weighted by the number of times the vertex's
incident-edge list records it. -/
def countWeightedReposition (m : Model) (fps oldPos : List Vec3) (i : Nat) : Vec3 :=
  let v := m.vertices.getD i default
  let n := v.faces.length
  (((n : ℚ) - 3) / (n : ℚ)) • oldPos.getD i 0 +
  (1 / (n : ℚ)) • (((v.faces.map (fun fj => fps.getD fj 0)).sum).divNat n) +
  (2 / (n : ℚ)) •
    ((∑ e ∈ v.edges.toFinset, v.edges.count e •
        (((1 : ℚ)/2) •
          (oldPos.getD (m.edges.getD e default).low_vertex.toNat 0 +
           oldPos.getD (m.edges.getD e default).high_vertex.toNat 0))).divNat
      v.edges.length)

/-- The repositioning loop's per-vertex formula averages the incident-edge
list as a multiset: it equals the count-weighted sum over distinct incident
edges. -/
theorem newVertexPosition_eq_countWeighted (m : Model) (fps oldPos : List Vec3)
    (i : Nat) :
    newVertexPosition m fps oldPos i = countWeightedReposition m fps oldPos i := by
  simp only [newVertexPosition, countWeightedReposition, foldl_add_f_eq_sum_map,
    zero_add]
  rw [Finset.sum_list_map_count, Finset.sum_list_map_count]

/-- Every face of the mesh reads pairwise-distinct corner positions. -/
def MeshDistinctCorners (mesh : Mesh) : Prop :=
  ∀ f ∈ mesh.faces, (cornerPositionsOf mesh f).Nodup

instance (mesh : Mesh) : Decidable (MeshDistinctCorners mesh) :=
  List.decidableBAll _ _

theorem c9Parts_empty : c9Parts emptyModel := by
  refine ⟨?_, ?_, ?_, ?_⟩
  · intro pr hpr
    cases hpr
  · intro ei hei
    simp [emptyModel] at hei
  · intro vi hvi
    simp [emptyModel] at hvi
  · intro vi hvi
    simp [emptyModel] at hvi

/-- The C9 invariant holds of the model the Topology Builder produces from
any mesh with pairwise-distinct per-face corner positions. -/
def c8c9Inv (m : Model) : Prop := c8Inv m ∧ c9Parts m

theorem c9Parts_meshToModel (mesh : Mesh) (h : MeshDistinctCorners mesh) :
    c9Parts (meshToModel mesh) := by
  rw [meshToModel]
  exact (foldl_preserve c8c9Inv _ mesh.faces emptyModel
    ⟨c8Inv_empty, c9Parts_empty⟩
    (fun x f hf hx => ⟨addFaceCore_c8 x f.isQuad _ hx.1,
      addFaceCore_c9 x f.isQuad _
        (by rw [cornerPositionsOf, List.length_map, List.length_range,
              Face.cornerCount])
        (h f hf) hx.1 hx.2⟩)).2

/-- C9: after the Topology Builder runs on a mesh whose faces have
pairwise-distinct corner positions, every vertex record's incident-edge list
is exactly twice as long as its incident-face list; the list records an edge
index once per face-side incidence on that edge having the vertex as an
endpoint (a multiset, k entries for an edge shared by k incident faces);
and the repositioning formula's incident-edge average consequently weights
each distinct incident edge by its number of recorded occurrences. -/
theorem c9_incident_edge_multiset (mesh : Mesh) (h : MeshDistinctCorners mesh)
    (vi : Nat) (hvi : vi < (meshToModel mesh).vertices.length) :
    ((meshToModel mesh).vertices.getD vi default).edges.length =
      2 * ((meshToModel mesh).vertices.getD vi default).faces.length ∧
    (∀ ei, ((meshToModel mesh).vertices.getD vi default).edges.count ei =
      (if (vi : Int) = ((meshToModel mesh).edges.getD ei default).low_vertex ∨
          (vi : Int) = ((meshToModel mesh).edges.getD ei default).high_vertex
       then (sideOccurrences (meshToModel mesh) ei).length else 0)) ∧
    (∀ fps oldPos, newVertexPosition (meshToModel mesh) fps oldPos vi =
      countWeightedReposition (meshToModel mesh) fps oldPos vi) := by
  obtain ⟨_, _, hDbl, hCnt⟩ := c9Parts_meshToModel mesh h
  exact ⟨hDbl vi hvi, fun ei => hCnt vi hvi ei,
    fun fps oldPos => newVertexPosition_eq_countWeighted _ fps oldPos vi⟩

/-- Witness for C9 on the fan of three triangles sharing one edge, at the
shared vertex 0. -/
theorem c9_incident_edge_multiset_witness :
    MeshDistinctCorners mesh3fan ∧
    0 < (meshToModel mesh3fan).vertices.length ∧
    (((meshToModel mesh3fan).vertices.getD 0 default).edges.length =
      2 * ((meshToModel mesh3fan).vertices.getD 0 default).faces.length ∧
    (∀ ei, ((meshToModel mesh3fan).vertices.getD 0 default).edges.count ei =
      (if ((0 : Nat) : Int) = ((meshToModel mesh3fan).edges.getD ei default).low_vertex ∨
          ((0 : Nat) : Int) = ((meshToModel mesh3fan).edges.getD ei default).high_vertex
       then (sideOccurrences (meshToModel mesh3fan) ei).length else 0)) ∧
    (∀ fps oldPos, newVertexPosition (meshToModel mesh3fan) fps oldPos 0 =
      countWeightedReposition (meshToModel mesh3fan) fps oldPos 0)) :=
  ⟨by decide, by decide, c9_incident_edge_multiset mesh3fan (by decide) 0 (by decide)⟩
